import Mathlib

/-!
Verification of the Evoco task-orchestration backend.

This file is a shallow embedding, in Lean 4, of the parts of the backend
that the specification's claims are about:

* `backend/services/planner.py` — plan ingestion (`_steps_from_raw`);
* `backend/services/circuit_breaker.py` — the three-state circuit breaker;
* `backend/services/executor.py` — the retry loop of `execute_step`;
* `backend/middleware/rate_limit.py` — the per-client token bucket;
* `backend/services/output.py` — the output formatter;
* `backend/orchestrator/dag.py` — the DAG scheduler (`DAGExecutor`);
* `backend/orchestrator/pipeline.py` — the pipeline driver (`run_task`).

Modelling conventions used throughout:

* Python floats are modelled as exact rationals (`ℚ`).  `round(x, n)` is
  modelled as rounding to the nearest multiple of `10^-n` (Python rounds
  ties to even on binary floats; no statement in this file depends on a
  tie, and every claim-relevant input is tie-free).
* Python dicts that carry dynamic JSON-ish data are association lists in
  insertion order (`List (String × Val)`); CPython dicts preserve
  insertion order, which the scheduler relies on for context ordering.
* Python sets (`DAGExecutor._pending`, `_failed_ids`) are modelled as
  duplicate-free lists.  CPython iterates a set of strings in an
  unspecified hash order; the model fixes one linearization (insertion
  order).  No theorem below depends on properties that hold for one
  iteration order only, except where a concrete run is evaluated, and
  there the choice is that linearization.
* `async` concurrency is linearized: `asyncio.wait(FIRST_COMPLETED)` is
  modelled by an arbitrary `chooser` function that picks which running
  worker finishes at each tick, and workers are executed atomically at
  that point.  External calls are oracles (`String → Val` per step id).
* The model file `backend/models/task.py` in the repository is an older
  draft that lacks `ExecutorType`, the `PARTIAL` / `REPLANNING` task
  statuses and the `executor`/`group`/`retries`/`max_retries`/`cost_usd`
  step fields, although every orchestrator module imports and uses them.
  Those declarations are modelled from the spec (§3 Data model); each
  carries a doc comment saying so.
-/

set_option maxHeartbeats 1000000
set_option maxRecDepth 4000

namespace Evoco

/-! ## Dynamic (JSON-ish) values

Python objects flowing through step results are modelled as a tagged
dynamic value, as the spec's design notes prescribe. -/

/-- A Python number: `int`, or `float` modelled as an exact rational. -/
inductive PyNum : Type
  | pint (n : ℤ)
  | pfloat (q : ℚ)
deriving Repr

/-- A dynamic Python/JSON value.  Dicts are association lists in
insertion order. -/
inductive Val : Type
  | vnull
  | vbool (b : Bool)
  | vnum (n : PyNum)
  | vstr (s : String)
  | vlist (l : List Val)
  | vdict (d : List (String × Val))
deriving Repr

open Val PyNum

/-- `d.get(k)` on a Python dict (association-list lookup). -/
def dGet (d : List (String × Val)) (k : String) : Option Val :=
  d.lookup k

/-- `d.get(k, default)`. -/
def dGetD (d : List (String × Val)) (k : String) (v : Val) : Val :=
  (dGet d k).getD v

/-- `v.get(k)` when `v` is a dict, `None`-ish otherwise. -/
def Val.getKey : Val → String → Option Val
  | vdict d, k => dGet d k
  | _, _ => none

/-- Python truthiness of a value (`bool(v)`). -/
def truthy : Val → Bool
  | vnull => false
  | vbool b => b
  | vnum (pint n) => n != 0
  | vnum (pfloat q) => q != 0
  | vstr s => !s.isEmpty
  | vlist l => !l.isEmpty
  | vdict d => !d.isEmpty

/-- Numeric reading of a value, used for sort keys and cost fields.
Python raises `TypeError` when a non-number reaches an arithmetic
comparison; no claim exercises that path, and the model reads such a
value as `0` (`True`/`False` read as `1`/`0`, as in Python, where `bool`
is an `int` subclass). -/
def qOf : Val → ℚ
  | vnum (pint n) => (n : ℚ)
  | vnum (pfloat q) => q
  | vbool b => if b then 1 else 0
  | _ => 0

/-- Truncation toward zero, Python's `int(x)` on a float. -/
def qTrunc (q : ℚ) : ℤ :=
  q.num / (q.den : ℤ)

/-- Round to the nearest multiple of `10 ^ (-places)`, modelling Python's
`round(x, places)` (see the file header about ties). -/
def pyRound (places : ℕ) (q : ℚ) : ℚ :=
  (round (q * (10 : ℚ) ^ places) : ℚ) / (10 : ℚ) ^ places

/-! ### Rendering values as Python `str()` does

Only scalar renderings are exercised by the claims (product names,
prices and ratings in the output formatter); containers are rendered in
Python's `repr` style for totality. -/

/-- Decimal digits of `n`, most significant first, padded to `width`. -/
def natDigitsPad (n width : ℕ) : String :=
  let s := toString n
  String.mk (List.replicate (width - s.length) '0') ++ s

/-- Drop trailing `'0'` characters. -/
def trimZeros (s : String) : String :=
  String.mk (s.toList.reverse.dropWhile (· == '0')).reverse

/-- Smallest `k ≤ bound` with `d ∣ 10 ^ k`, if any. -/
def decExp (d : ℕ) : ℕ → Option ℕ
  | 0 => if d ∣ 1 then some 0 else none
  | b + 1 =>
    match decExp d b with
    | some k => some k
    | none => if d ∣ 10 ^ (b + 1) then some (b + 1) else none

/-- Python `repr`/`str` of a float, for floats whose value is an exact
decimal (every float a claim touches is one): minimal decimal digits,
at least one (`4.5`, `90.0`).  A rational with no finite decimal
expansion within 25 digits is rendered as a fraction; no Python float
takes that path, since every float is a dyadic rational. -/
def floatRepr (q : ℚ) : String :=
  let sign := if q.num < 0 then "-" else ""
  let n := q.num.natAbs
  let d := q.den
  match decExp d 25 with
  | some k =>
    let scaled := n * (10 ^ k / d)
    let ip := scaled / 10 ^ k
    let fr := scaled % 10 ^ k
    let frs := trimZeros (natDigitsPad fr k)
    sign ++ toString ip ++ "." ++ (if frs.isEmpty then "0" else frs)
  | none => sign ++ toString n ++ "/" ++ toString d

/-- Comma-and-space separated joining, as Python renders containers. -/
def joinComma : List String → String
  | [] => ""
  | [s] => s
  | s :: rest => s ++ ", " ++ joinComma rest

/-- Python `str()` of a value, structurally recursive on a depth fuel so
that it evaluates by kernel reduction; `pyStr` below supplies a fuel no
smaller than the value's depth.  Containers render in `repr` style
(their elements quoted when strings). -/
def pyStrF : ℕ → Val → String
  | _, vnull => "None"
  | _, vbool b => if b then "True" else "False"
  | _, vnum (pint n) => toString n
  | _, vnum (pfloat q) => floatRepr q
  | _, vstr s => s
  | 0, vlist _ => "[…]"
  | 0, vdict _ => "\x7b…\x7d"
  | fuel + 1, vlist l =>
    "[" ++ joinComma (l.map fun v =>
      match v with
      | vstr s => "'" ++ s ++ "'"
      | w => pyStrF fuel w) ++ "]"
  | fuel + 1, vdict d =>
    "\x7b" ++ joinComma (d.map fun kv =>
      "'" ++ kv.1 ++ "': " ++
        match kv.2 with
        | vstr s => "'" ++ s ++ "'"
        | w => pyStrF fuel w) ++ "\x7d"

/-- Python `str()` of a value.  The fuel bounds only the nesting depth
of containers; scalars never consume it, and no value in this
development nests beyond depth 1000. -/
def pyStr (v : Val) : String :=
  pyStrF 1000 v

/-- Substring test on character lists (`pat` occurs in `s`). -/
def lStarts : List Char → List Char → Bool
  | _, [] => true
  | [], _ :: _ => false
  | a :: as, b :: bs => a == b && lStarts as bs

/-- Recursive scan for an occurrence of `pat`. -/
def lContains : List Char → List Char → Bool
  | [], pat => pat.isEmpty
  | s@(_ :: rest), pat => lStarts s pat || lContains rest pat

/-- Python's `pat in s` on strings. -/
def strContains (s pat : String) : Bool :=
  lContains s.toList pat.toList

/-! ## Data model (`backend/models/task.py` and the spec §3)

`StepStatus`, `TaskStatus` (base states) follow `backend/models/task.py`.
The repository's draft of that file lacks the declarations below that are
marked as modelled from the spec, although `pipeline.py`, `dag.py`,
`executor.py` and `planner.py` import and use them. -/

/-- Step status, from `backend/models/task.py`. -/
inductive StepStatus : Type
  | pending
  | running
  | completed
  | failed
  | skipped
deriving Repr, DecidableEq

/-- Task status.  `queued`/`planning`/`executing`/`completed`/`failed`/
`cancelled` are in `backend/models/task.py`; `replanning` and the partial
terminal state are modelled from the spec (§3 state machine:
`queued → planning → executing → {replanning → executing}? →
(completed | partial | failed | cancelled)`), since `pipeline.py` uses
`TaskStatus.REPLANNING` and `TaskStatus.PARTIAL`.  The partial state is
named `partialSt` because its Python name is a Lean keyword. -/
inductive TaskStatus : Type
  | queued
  | planning
  | executing
  | replanning
  | completed
  | partialSt
  | failed
  | cancelled
deriving Repr, DecidableEq

/-- Modelled from the spec: executor kind of a step, `browser` or `llm`
(§3 Step attributes; `ExecutorType` is imported from the models module
by every orchestrator file but missing from the repository's draft). -/
inductive ExecutorType : Type
  | browser
  | llm
deriving Repr, DecidableEq

/-- The `.value` of the executor enum, as `step.executor.value` reads it. -/
def ExecutorType.value : ExecutorType → String
  | .browser => "browser"
  | .llm => "llm"

/-- `ExecutorType(s)`: Python enum construction, `ValueError` for an
unknown value, modelled as `none`. -/
def parseExecutor : String → Option ExecutorType
  | "browser" => some .browser
  | "llm" => some .llm
  | _ => none

/-- A plan step.  `id`/`action`/`target`/`description`/`depends_on` are
in `backend/models/task.py`; `executor`, `group` and `max_retries` are
modelled from the spec (§3 Step attributes: executor kind, group label,
maximum retries), being used by `dag.py`/`executor.py`/`planner.py` but
absent from the repository's models draft.  The mutable fields (status,
result, error, retries, cost) live in `StepState` below, so that a plan
stays immutable and execution state is explicit. -/
structure Step : Type where
  id : String
  action : String
  target : String
  description : String
  executor : ExecutorType
  group : String
  depends_on : List String
  max_retries : ℕ
deriving Repr, DecidableEq

/-! ## Planner adapter: `_steps_from_raw` (`backend/services/planner.py`)

`_steps_from_raw` converts raw planner output into steps: a first pass
creates steps with fresh ids, a second pass resolves index-based
`depends_on` entries to those ids.  Fresh id generation (`uuid4().hex[:8]`)
is a parameter `idOf : ℕ → String`. -/

/-- One entry of a raw step's `depends_on` list: a Python `int`, a `str`,
or any other value (dropped by the resolution loop). -/
inductive RawDep : Type
  | idx (i : ℤ)
  | name (s : String)
  | other
deriving Repr, DecidableEq

/-- A raw step descriptor as the planner (or the mock planner) emits it;
`none` fields model absent dict keys, read through `.get` defaults. -/
structure RawItem : Type where
  action : Option String := none
  target : Option String := none
  description : Option String := none
  executor : Option String := none
  group : Option String := none
  depends_on : List RawDep := []
deriving Repr

/-- First pass of `_steps_from_raw`: build the step for raw item `i`;
`none` exactly when `ExecutorType(item.get("executor", "browser"))`
raises `ValueError`. -/
def mkRawStep (idOf : ℕ → String) (i : ℕ) (item : RawItem) : Option Step :=
  (parseExecutor (item.executor.getD "browser")).map fun ex =>
    { id := idOf i
      action := item.action.getD "unknown"
      target := item.target.getD ""
      description := item.description.getD ""
      executor := ex
      group := item.group.getD ""
      depends_on := []
      -- default of the missing models draft; no claim depends on its value
      max_retries := 2 }

/-- Second pass: resolve one `depends_on` entry.  In-range integer
indices map to the fresh id of that position, out-of-range integers and
non-int/non-str values are silently dropped, strings pass straight
through (no check that they name a step). -/
def resolveDep (idOf : ℕ → String) (count : ℕ) : RawDep → List String
  | .idx i => if 0 ≤ i ∧ i < (count : ℤ) then [idOf i.toNat] else []
  | .name s => [s]
  | .other => []

/-- The first `for` loop of `_steps_from_raw` from position `i` on:
build each raw item's step, stopping with the `ValueError` (`none`) of
the first invalid executor. -/
def firstPass (idOf : ℕ → String) : ℕ → List RawItem → Option (List Step)
  | _, [] => some []
  | i, item :: rest =>
    match mkRawStep idOf i item, firstPass idOf (i + 1) rest with
    | some s, some ss => some (s :: ss)
    | _, _ => none

/-- `_steps_from_raw(raw, task_id)`: the two passes.  Returns `none`
exactly when some item's executor value is invalid; performs no cycle
detection and no check that dependencies resolve to steps of the
plan. -/
def steps_from_raw (raw : List RawItem) (idOf : ℕ → String) :
    Option (List Step) :=
  (firstPass idOf 0 raw).map fun steps =>
    steps.zipWith
      (fun s item =>
        { s with depends_on := item.depends_on.flatMap (resolveDep idOf raw.length) })
      raw

/-! ## Circuit breaker (`backend/services/circuit_breaker.py`)

A pure state machine over rational monotonic time.  The async lock
serializes transitions in the source; the model is already sequential.
The half-open probe semaphore is the `sem_value` counter
(`asyncio.Semaphore._value`). -/

/-- The three circuit states.  `CircuitState.OPEN` is named `opened`
because `open` is a Lean keyword. -/
inductive CBState : Type
  | closed
  | opened
  | half_open
deriving Repr, DecidableEq

/-- Payload of `CircuitOpenError(breaker_name, retry_after)`. -/
structure CircuitOpenInfo : Type where
  breaker_name : String
  retry_after : ℚ
deriving Repr, DecidableEq

/-- Circuit breaker state (`CircuitBreaker.__init__`). -/
structure CircuitBreaker : Type where
  name : String
  failure_threshold : ℕ
  recovery_timeout : ℚ
  half_open_max : ℕ
  state : CBState
  failure_count : ℕ
  success_count : ℕ
  last_failure_time : ℚ
  sem_value : ℕ
deriving Repr, DecidableEq

/-- A fresh breaker: closed, zero counters (`__init__`). -/
def mkBreaker (name : String) (failure_threshold : ℕ)
    (recovery_timeout : ℚ) (half_open_max : ℕ := 1) : CircuitBreaker :=
  { name, failure_threshold, recovery_timeout, half_open_max
    state := .closed
    failure_count := 0
    success_count := 0
    last_failure_time := 0
    sem_value := half_open_max }

/-- The `state` property: lazily transitions `opened → half_open` once
`recovery_timeout` has elapsed since the last failure, and returns the
(possibly updated) state. -/
def CircuitBreaker.readState (b : CircuitBreaker) (now : ℚ) :
    CircuitBreaker × CBState :=
  if b.state = .opened ∧ now - b.last_failure_time ≥ b.recovery_timeout then
    ({ b with state := .half_open }, .half_open)
  else
    (b, b.state)

/-- Method `__aenter__`: fail fast with `CircuitOpenError` when open (or
when half-open with no probe slot), otherwise admit, taking a probe slot
in half-open state. -/
def CircuitBreaker.enter (b : CircuitBreaker) (now : ℚ) :
    Except CircuitOpenInfo CircuitBreaker :=
  let p := b.readState now
  match p.2 with
  | .opened =>
    .error ⟨p.1.name, max 0 (p.1.recovery_timeout - (now - p.1.last_failure_time))⟩
  | .half_open =>
    if p.1.sem_value > 0 then .ok { p.1 with sem_value := p.1.sem_value - 1 }
    else .error ⟨p.1.name, 1⟩
  | .closed => .ok p.1

/-- Method `_on_success`: bump the success counter; a half-open probe
success closes the circuit and resets the failure counter, a closed
success resets the failure counter. -/
def CircuitBreaker.on_success (b : CircuitBreaker) : CircuitBreaker :=
  let b := { b with success_count := b.success_count + 1 }
  match b.state with
  | .half_open => { b with state := .closed, failure_count := 0 }
  | .closed => { b with failure_count := 0 }
  | .opened => b

/-- Method `_on_failure`: count the failure and stamp its time; a
half-open probe failure reopens, and a closed breaker opens once the
count reaches the threshold. -/
def CircuitBreaker.on_failure (b : CircuitBreaker) (now : ℚ) : CircuitBreaker :=
  let b := { b with failure_count := b.failure_count + 1, last_failure_time := now }
  match b.state with
  | .half_open => { b with state := .opened }
  | .closed =>
    if b.failure_count ≥ b.failure_threshold then { b with state := .opened } else b
  | .opened => b

/-- Method `__aexit__`: release the probe slot when the stored state is
half-open, then record the call's outcome. -/
def CircuitBreaker.aexit (b : CircuitBreaker) (failedCall : Bool) (now : ℚ) :
    CircuitBreaker :=
  let b := if b.state = .half_open then { b with sem_value := b.sem_value + 1 } else b
  if failedCall then b.on_failure now else b.on_success

/-- Method `reset()`: manual return to closed with a zero failure
counter. -/
def CircuitBreaker.resetBreaker (b : CircuitBreaker) : CircuitBreaker :=
  { b with state := .closed, failure_count := 0 }

/-- Fold recording one failure per listed timestamp; each element is one
`_on_failure` call, a "recorded failure" in the spec's wording. -/
def recordFailures (b : CircuitBreaker) : List ℚ → CircuitBreaker
  | [] => b
  | t :: ts => recordFailures (b.on_failure t) ts

/-! ## Step executor retry loop (`backend/services/executor.py`)

`execute_step` attempts the backend call up to `max_retries + 1` times.
One attempt's outcome is either a returned result dict or a raised
exception with a type name and message; the model takes the outcome
sequence as an oracle `attempts : ℕ → Attempt`.  The loop consults no
circuit breaker: the breakers of `circuit_breaker.py` are instantiated
at module level but `execute_step` never enters one. -/

/-- Outcome of one backend attempt: a returned result value, or an
exception with its type name and message. -/
inductive Attempt : Type
  | ok (result : Val)
  | exc (kind : String) (msg : String)
deriving Repr

/-- `_NO_RETRY_PATTERNS` membership: an exception whose type name
contains one of the patterns is never retried. -/
def no_retry (kind : String) : Bool :=
  strContains kind "ExceededMaxSteps" || strContains kind "ActExceededMaxSteps"

/-- The `{"success": False, "error": f"<kind>: <message>"}` dict that
`execute_step` returns on exhaustion or on a non-retryable error. -/
def failDict (kind msg : String) : Val :=
  .vdict [("success", .vbool false), ("error", .vstr (kind ++ ": " ++ msg))]

/-- Result of `execute_step`: the returned dict, the final value of
`step.retries`, and the value written to `step.cost_usd` (written only
on the successful-return path, where it reads
`result.get("cost_usd", 0.0)`). -/
structure ExecOut : Type where
  result : Val
  retries : ℕ
  costWritten : Option ℚ
deriving Repr

/-- The retry loop of `execute_step` from attempt `a` on: a successful
attempt returns its result (recording `retries = a` and the cost); an
exception records `retries = a + 1`, breaks immediately when its name
matches a no-retry pattern, retries (after a `2 ^ a`-second sleep, not
modelled) while attempts remain, and otherwise falls through to the
exhaustion return built from the last error.  The recursion is
structural on `fuel`, kept equal to `max_retries - a` by every caller,
so the `fuel = 0` case coincides with the no-attempt-left case. -/
def execRetryF (attempts : ℕ → Attempt) (max_retries : ℕ) :
    ℕ → ℕ → ExecOut
  | fuel, a =>
    match attempts a with
    | .ok r => ⟨r, a, some (qOf ((r.getKey "cost_usd").getD (.vnum (.pfloat 0))))⟩
    | .exc kind msg =>
      if no_retry kind then ⟨failDict kind msg, a + 1, none⟩
      else
        match fuel with
        | 0 => ⟨failDict kind msg, a + 1, none⟩
        | fuel + 1 =>
          if a < max_retries then execRetryF attempts max_retries fuel (a + 1)
          else ⟨failDict kind msg, a + 1, none⟩

/-- `execute_step(step, context, pool)`, outcome view: the loop starting
at attempt 0 with all `max_retries` retries available. -/
def execute_step_model (attempts : ℕ → Attempt) (max_retries : ℕ) : ExecOut :=
  execRetryF attempts max_retries max_retries 0

/-! ## Token-bucket rate limiter (`backend/middleware/rate_limit.py`) -/

/-- A per-client token bucket (`TokenBucket` dataclass). -/
structure TokenBucket : Type where
  capacity : ℚ
  refill_rate : ℚ
  tokens : ℚ
  last_refill : ℚ
deriving Repr, DecidableEq

/-- `__post_init__`: a fresh bucket is full, stamped with its creation
time. -/
def mkBucket (capacity refill_rate start : ℚ) : TokenBucket :=
  ⟨capacity, refill_rate, capacity, start⟩

/-- `consume()`: refill by the elapsed time (capped at capacity), stamp
the refill time, then take one token when at least one is available.
Returns the updated bucket and whether the request is admitted. -/
def TokenBucket.consume (b : TokenBucket) (now : ℚ) : TokenBucket × Bool :=
  let elapsed := now - b.last_refill
  let toks := min b.capacity (b.tokens + elapsed * b.refill_rate)
  if toks ≥ 1 then
    ({ b with tokens := toks - 1, last_refill := now }, true)
  else
    ({ b with tokens := toks, last_refill := now }, false)

/-- The `retry_after` property: seconds until the next token. -/
def TokenBucket.retry_after (b : TokenBucket) : ℚ :=
  if b.tokens ≥ 1 then 0 else (1 - b.tokens) / b.refill_rate

/-- What `RateLimitMiddleware.dispatch` produces for one non-exempt
request: HTTP status, the rate-limit headers it sets, and the
`retry_after_seconds` body field of a 429. -/
structure RLResponse : Type where
  status : ℕ
  headers : List (String × String)
  retry_after_body : Option ℚ
deriving Repr, DecidableEq

/-- `dispatch` on a non-exempt path for a client whose bucket is `b`:
consume a token; on success pass the request through and stamp
`RateLimit-Limit` / `RateLimit-Remaining` (remaining is `int(tokens)`);
on failure answer 429 with `retry_after` rounded to one decimal. -/
def dispatchModel (b : TokenBucket) (now : ℚ) (max_tasks_per_minute : ℕ) :
    TokenBucket × RLResponse :=
  let p := b.consume now
  if p.2 then
    (p.1, ⟨200,
      [("RateLimit-Limit", toString max_tasks_per_minute),
       ("RateLimit-Remaining", toString (qTrunc p.1.tokens))], none⟩)
  else
    let ra := pyRound 1 p.1.retry_after
    (p.1, ⟨429,
      [("Retry-After", toString (qTrunc ra + 1)),
       ("RateLimit-Limit", toString max_tasks_per_minute),
       ("RateLimit-Remaining", "0")], some ra⟩)

/-! ## Output formatter (`backend/services/output.py`)

The formatter reads each step's (mutated) `result`; the view it needs of
a plan is the command plus each step's action and result. -/

/-- Output format (`OutputFormat` in `backend/models/task.py`). -/
inductive OutputFormat : Type
  | json
  | csv
  | summary
deriving Repr, DecidableEq

/-- A step as the formatter sees it. -/
structure FmtStep : Type where
  action : String
  result : Option Val
deriving Repr

/-- A plan as the formatter sees it. -/
structure FmtPlan : Type where
  original_command : String
  steps : List FmtStep
deriving Repr

/-- `_is_product`: a dict with at least a `name` key. -/
def isProduct : Val → Bool
  | .vdict d => (dGet d "name").isSome
  | _ => false

/-- The dedup identity of `_add_products`:
`f"{item.get('name', '')}-{item.get('source', '')}"` — note this is the
hyphen-joined string rendering, not the pair. -/
def identOf (v : Val) : String :=
  pyStr ((v.getKey "name").getD (.vstr "")) ++ "-" ++
    pyStr ((v.getKey "source").getD (.vstr ""))

/-- The loop body of `_add_products` for one entry. -/
def addOne (acc : List Val × List String) (item : Val) :
    List Val × List String :=
  if !isProduct item then acc
  else if identOf item ∈ acc.2 then acc
  else (acc.1 ++ [item], acc.2 ++ [identOf item])

/-- `_add_products`: append the product-shaped entries of `items` whose
identity has not been seen, recording identities in `seen`. -/
def addProducts (items : List Val) (acc : List Val × List String) :
    List Val × List String :=
  items.foldl addOne acc

/-- The three top-level keys `_collect_products` probes. -/
def productKeys : List String := ["extracted", "products", "ranked"]

/-- Probe one key of a dict for a list value and add it. -/
def probeKey (d : List (String × Val)) (acc : List Val × List String)
    (k : String) : List Val × List String :=
  match dGet d k with
  | some (.vlist items) => addProducts items acc
  | _ => acc

/-- Probe the three keys of a dict for list values and add them. -/
def addFromKeys (d : List (String × Val)) (acc : List Val × List String) :
    List Val × List String :=
  productKeys.foldl (probeKey d) acc

/-- The per-step body of `_collect_products`: probe the top-level keys,
then the nested `response` value (a list of products, or a dict probed
with the same keys). -/
def collectStep (acc : List Val × List String) (st : FmtStep) :
    List Val × List String :=
  match st.result with
  | some (.vdict d) =>
    let acc := addFromKeys d acc
    match dGet d "response" with
    | some (.vlist items) => addProducts items acc
    | some (.vdict rd) => addFromKeys rd acc
    | _ => acc
  | _ => acc

/-- `_collect_products(plan)`. -/
def collect_products (plan : FmtPlan) : List Val :=
  (plan.steps.foldl collectStep ([], [])).1

/-- Python `s.strip('"')`: drop the double quotes at both ends. -/
def stripQuotes (s : String) : String :=
  String.mk (((s.toList.dropWhile (· == '"')).reverse.dropWhile (· == '"')).reverse)

/-- Join with single blanks (`" ".join`). -/
def joinSp : List String → String
  | [] => ""
  | [s] => s
  | s :: rest => s ++ " " ++ joinSp rest

/-- `_stringify`. -/
def stringify : Val → String
  | .vstr s => stripQuotes s
  | .vlist l => joinSp (l.map pyStr)
  | v => pyStr v

/-- The `response`-probing part of `_get_summary_text` for one summarize
step's result dict. -/
def summaryFromResponse (d : List (String × Val)) : Option String :=
  match dGet d "response" with
  | some (.vdict rd) =>
    match dGet rd "summary" with
    | some t =>
      if truthy t then some (stringify t)
      else
        match dGet rd "recommendation" with
        | some r => if truthy r then some (stringify r) else none
        | none => none
    | none =>
      match dGet rd "recommendation" with
      | some r => if truthy r then some (stringify r) else none
      | none => none
  | some (.vstr s) => some (stripQuotes s)
  | some (.vlist l) => some (joinSp (l.map pyStr))
  | _ => none

/-- What `_get_summary_text` extracts from one summarize step's result
dict: the truthy top-level `summary`, else the `response` probe. -/
def summaryFromDict (d : List (String × Val)) : Option String :=
  match dGet d "summary" with
  | some t => if truthy t then some (stringify t) else summaryFromResponse d
  | none => summaryFromResponse d

/-- The reverse scan of `_get_summary_text` (input already reversed):
only summarize steps with a truthy dict result are probed; a step that
yields nothing lets the scan continue. -/
def summaryScan : List FmtStep → Option String
  | [] => none
  | st :: rest =>
    match st.result with
    | some (.vdict d) =>
      if st.action = "summarize" ∧ truthy (.vdict d) then
        match summaryFromDict d with
        | some t => some t
        | none => summaryScan rest
      else summaryScan rest
    | _ => summaryScan rest

/-- `_get_summary_text(plan)`. -/
def get_summary_text (plan : FmtPlan) : Option String :=
  summaryScan plan.steps.reverse

/-- Strict comparison of `_product_sort_key` tuples
`(-p.get("rating", 0), p.get("price", 0))`, Python's `<` on tuples.
`Rat.neg` is used so the comparison evaluates by kernel reduction. -/
def keyLt (p q : Val) : Bool :=
  let rp := Rat.neg (qOf ((p.getKey "rating").getD (.vnum (.pint 0))))
  let rq := Rat.neg (qOf ((q.getKey "rating").getD (.vnum (.pint 0))))
  if rp < rq then true
  else if rp = rq then
    decide (qOf ((p.getKey "price").getD (.vnum (.pint 0))) <
      qOf ((q.getKey "price").getD (.vnum (.pint 0))))
  else false

/-- Stable insertion placing `x` before the first strictly greater
element. -/
def sinsert (lt : α → α → Bool) (x : α) : List α → List α
  | [] => [x]
  | y :: ys => if lt x y then x :: y :: ys else y :: sinsert lt x ys

/-- Stable sort (the result of Python's stable `sorted` for the key
comparison `lt`): elements are inserted left to right, an equal element
landing after the ones already placed. -/
def ssort (lt : α → α → Bool) (l : List α) : List α :=
  l.foldl (fun acc x => sinsert lt x acc) []

/-- The `sorted(products, key=_product_sort_key)` call of
`format_output` (guarded to `[]` on an empty collection as in the
source). -/
def sortedProducts (plan : FmtPlan) : List Val :=
  let products := collect_products plan
  if products.isEmpty then [] else ssort keyLt products

/-- `_as_json`. -/
def format_json (plan : FmtPlan) : Val :=
  let products := sortedProducts plan
  .vdict
    [("command", .vstr plan.original_command),
     ("total_results", .vnum (.pint products.length)),
     ("results", .vlist products),
     ("summary",
       match get_summary_text plan with
       | some s => .vstr s
       | none => .vnull)]

/-- Whether the csv module must quote a field (default dialect,
`QUOTE_MINIMAL`). -/
def csvNeedsQuote (s : String) : Bool :=
  s.toList.any fun c => c == ',' || c == '"' || c == '\r' || c == '\n'

/-- Minimal csv quoting: wrap and double the quotes when needed. -/
def csvField (s : String) : String :=
  if csvNeedsQuote s then
    "\"" ++ String.mk (s.toList.flatMap fun c => if c == '"' then ['"', '"'] else [c]) ++ "\""
  else s

/-- One `DictWriter` cell: a missing key writes the rest value `""`, a
`None` writes the empty string, anything else its `str()`. -/
def csvCell (p : Val) (k : String) : String :=
  match p.getKey k with
  | none => ""
  | some .vnull => ""
  | some v => csvField (pyStr v)

/-- One csv row over the fixed field names, `\r\n`-terminated as the csv
module writes it. -/
def csvRow (cells : List String) : String :=
  String.intercalate "," cells ++ "\r\n"

/-- `_as_csv`. -/
def format_csv (plan : FmtPlan) : String :=
  let products := sortedProducts plan
  if products.isEmpty then "No results found."
  else
    csvRow ["name", "price", "rating", "source"] ++
      String.join (products.map fun p =>
        csvRow (["name", "price", "rating", "source"].map (csvCell p)))

/-- One numbered product line of `_as_summary` (`N/A` / `unrated` for
falsy price / rating, as the source's truthiness tests give). -/
def productLine (i : ℕ) (p : Val) : String :=
  let pv := (p.getKey "price").getD .vnull
  let rv := (p.getKey "rating").getD .vnull
  let priceStr := if truthy pv then "$" ++ pyStr pv else "N/A"
  let ratingStr := if truthy rv then pyStr rv ++ " stars" else "unrated"
  toString i ++ ". " ++ pyStr ((p.getKey "name").getD (.vstr "Unknown")) ++
    " — " ++ priceStr ++ " (" ++ ratingStr ++ ") from " ++
    pyStr ((p.getKey "source").getD (.vstr "unknown"))

/-- Number a list from `start` (`enumerate(l, start)`). -/
def enumFrom (start : ℕ) : List α → List (ℕ × α)
  | [] => []
  | x :: xs => (start, x) :: enumFrom (start + 1) xs

/-- `_as_summary`. -/
def format_summary (plan : FmtPlan) : String :=
  let products := sortedProducts plan
  let summary := get_summary_text plan
  let header := ["Results for: " ++ plan.original_command, ""]
  if products.isEmpty ∧ summary.isNone then
    "No results were found for your query."
  else
    let body :=
      if products.isEmpty then []
      else (enumFrom 1 (products.take 10)).map fun p => productLine p.1 p.2
    let tail :=
      match summary with
      | some s => ["", s]
      | none => []
    String.intercalate "\n" (header ++ body ++ tail)

/-- `format_output(plan, fmt)` (strings wrapped as values so the three
formats share a result type). -/
def format_output (plan : FmtPlan) : OutputFormat → Val
  | .json => format_json plan
  | .csv => .vstr (format_csv plan)
  | .summary => .vstr (format_summary plan)

/-! ## DAG scheduler (`backend/orchestrator/dag.py`)

`DAGExecutor` keeps the plan's steps, a pending id set, the map of
completed results (insertion-ordered dict), and the set of failed-or-
skipped ids (`_failed_ids` receives skipped ids too, at `dag.py:73`).
The mutable per-step fields (`status`, `result`, `error`, `cost_usd`)
live in `StepState`, indexed by step id.

Linearization (see the file header): the pending set is scanned in list
order; `asyncio.wait(FIRST_COMPLETED)` is replaced by a `chooser`
picking which running worker finishes at each tick, at which point that
worker's whole effect (its `execute_step` result, via the oracle) is
applied.  Each step's `retries` counter is owned by `execute_step`,
which the oracle abstracts, so it stays 0 here. -/

/-- The mutable state of one step. -/
structure StepState : Type where
  status : StepStatus
  result : Option Val
  error : Option String
  retries : ℕ
  cost_usd : ℚ
deriving Repr

/-- A step before execution touches it. -/
def StepState.start : StepState :=
  ⟨.pending, none, none, 0, 0⟩

/-- Pointwise update of the step-state map. -/
def updState (f : String → StepState) (sid : String) (ss : StepState) :
    String → StepState :=
  fun x => if x = sid then ss else f x

/-- Set insertion for a list modelling a Python set. -/
def insertId (l : List String) (sid : String) : List String :=
  if sid ∈ l then l else l ++ [sid]

/-- `self._steps[step_id]` (the dict comprehension `{s.id: s}`; ids are
distinct in every run the theorems quantify over, the hypotheses say
so). -/
def findStep (plan : List Step) (sid : String) : Option Step :=
  plan.find? fun s => s.id == sid

/-- The scheduler's whole state. -/
structure DagState : Type where
  plan : List Step
  stateOf : String → StepState
  pending : List String
  running : List String
  completedL : List (String × Val)
  failedIds : List String
  delivered : List (String × List Val)

/-- `DAGExecutor.__init__` state for a plan. -/
def initState (plan : List Step) : DagState :=
  { plan
    stateOf := fun _ => .start
    pending := plan.map (·.id)
    running := []
    completedL := []
    failedIds := []
    delivered := [] }

/-- What one `_get_ready_steps` scan produces: the ready steps in scan
order, the surviving pending ids, and the updated step states and
failed-id set (skip cascade marks applied). -/
structure ScanOut : Type where
  ready : List Step
  newPending : List String
  stOf : String → StepState
  failed : List String

/-- The skip marking of `_get_ready_steps` (`dag.py:71-73`). -/
def skipMark (ss : StepState) : StepState :=
  { ss with status := .skipped, error := some "dependency failed" }

/-- The scan loop of `_get_ready_steps` over the pending ids: an id
whose status moved on is dropped; a step with a dependency in the
failed set is marked skipped, its error set to `"dependency failed"`,
and its id added to the failed set (so later ids of the same scan see
it); a step whose dependencies are all completed becomes ready;
anything else stays pending. -/
def scanP (plan : List Step) (completedL : List (String × Val)) :
    (String → StepState) → List String → List String → ScanOut
  | stOf, failed, [] => ⟨[], [], stOf, failed⟩
  | stOf, failed, sid :: rest =>
    match findStep plan sid with
    | none => scanP plan completedL stOf failed rest
    | some step =>
      if (stOf sid).status ≠ .pending then
        scanP plan completedL stOf failed rest
      else if step.depends_on ≠ [] ∧ ∃ d ∈ step.depends_on, d ∈ failed then
        scanP plan completedL (updState stOf sid (skipMark (stOf sid)))
          (insertId failed sid) rest
      else if ∀ d ∈ step.depends_on, ((completedL.lookup d).isSome : Prop) then
        let out := scanP plan completedL stOf failed rest
        { out with ready := step :: out.ready }
      else
        let out := scanP plan completedL stOf failed rest
        { out with newPending := sid :: out.newPending }

/-- `_get_ready_steps`, acting on the whole state. -/
def getReady (st : DagState) : List Step × DagState :=
  let out := scanP st.plan st.completedL st.stateOf st.failedIds st.pending
  (out.ready,
   { st with pending := out.newPending, stateOf := out.stOf, failedIds := out.failed })

/-- `_collect_context_for`: each explicit dependency's completed result
(in dependency-list order), replaced by all completed results of the
plan (in completion insertion order) for an `llm` step with no explicit
dependencies. -/
def collectContext (st : DagState) (s : Step) : List Val :=
  if s.depends_on = [] ∧ s.executor = .llm then st.completedL.map (·.2)
  else s.depends_on.filterMap fun d => st.completedL.lookup d

/-- Launching one ready step (`dag.py:137-145` and the start of
`_run_step`): mark it running, record it in the running set, and record
the context handed to `execute_step`. -/
def launchStep (st : DagState) (s : Step) : DagState :=
  { st with
    stateOf := updState st.stateOf s.id { st.stateOf s.id with status := .running }
    running := st.running ++ [s.id]
    delivered := st.delivered ++ [(s.id, collectContext st s)] }

/-- The error message recorded by `mark_failed`:
`result.get("error", "unknown error")` (a non-string error value is
stored through its `str()`, the type the field declares). -/
def errorString (res : Val) : String :=
  match res.getKey "error" with
  | some v => pyStr v
  | none => "unknown error"

/-- Handling one finished worker (`dag.py:154-194`): a truthy
`success` marks the step completed, records its result in the completed
dict and its cost (the `step.cost_usd` write of `execute_step`'s
successful return); anything else marks it failed and adds its id to
the failed set. -/
def processResult (st : DagState) (sid : String) (res : Val) : DagState :=
  let st1 := { st with running := st.running.erase sid }
  if truthy ((res.getKey "success").getD .vnull) then
    { st1 with
      stateOf := updState st1.stateOf sid
        { st1.stateOf sid with
          status := .completed
          result := some res
          cost_usd := qOf ((res.getKey "cost_usd").getD (.vnum (.pfloat 0))) }
      completedL := st1.completedL ++ [(sid, res)] }
  else
    { st1 with
      stateOf := updState st1.stateOf sid
        { st1.stateOf sid with status := .failed, error := some (errorString res) }
      failedIds := insertId st1.failedIds sid }

/-- The main loop of `DAGExecutor.execute`: scan for ready steps, launch
them, stop when nothing is running, otherwise let the chooser pick the
worker that finishes first and process its result.  The fuel only makes
the recursion structural; `dag_terminates` below shows a fuel of
`|plan| + 1` always suffices. -/
def dagLoop (oracle : String → Val) (chooser : ℕ → ℕ) :
    ℕ → ℕ → DagState → Option DagState
  | 0, _, _ => none
  | fuel + 1, tick, st =>
    let p := getReady st
    let st2 := p.1.foldl launchStep p.2
    if st2.running.isEmpty then some st2
    else
      let sid := st2.running.getD (chooser tick % st2.running.length) ""
      dagLoop oracle chooser fuel (tick + 1) (processResult st2 sid (oracle sid))

/-- `DAGExecutor.execute()` on a fresh executor for `plan`. -/
def dagRun (oracle : String → Val) (chooser : ℕ → ℕ) (fuel : ℕ)
    (plan : List Step) : Option DagState :=
  dagLoop oracle chooser fuel 0 (initState plan)

/-- The summary dict `execute` returns (`dag.py:206-213`): note
`failed` counts the whole `_failed_ids` set — failed and skipped steps
alike — and `skipped` is the arithmetic remainder. -/
structure DagSummary : Type where
  total : ℕ
  completed : ℕ
  failed : ℕ
  skipped : ℕ
  completed_results : List (String × Val)
  failed_ids : List String
deriving Repr

/-- Build the summary from a final state. -/
def summarize (st : DagState) : DagSummary :=
  { total := st.plan.length
    completed := st.completedL.length
    failed := st.failedIds.length
    skipped := st.plan.length - st.completedL.length - st.failedIds.length
    completed_results := st.completedL
    failed_ids := st.failedIds }

/-! ## Pipeline driver (`backend/orchestrator/pipeline.py`)

`run_task` plans, executes, replans once when every branch failed,
determines the terminal status, and emits `task_done`.  Planning is an
external call; the model takes the first plan and the replacement plan
as inputs (`create_plan` / `replan` results), together with the
execution oracles.  Event emission other than the final `task_done`
payload and wall-clock reading are abstracted: `createdAt`/`finishedAt`
are the task's two timestamps and `planMs`/`execMs` the stage durations
measured between them. -/

/-- The `.value` string of a task status.  The partial state's Python
value is the lowercase name of a Lean keyword, hence the split
spelling. -/
def TaskStatus.value : TaskStatus → String
  | .queued => "queued"
  | .planning => "planning"
  | .executing => "executing"
  | .replanning => "replanning"
  | .completed => "completed"
  | .partialSt => "partial"
  | .failed => "failed"
  | .cancelled => "cancelled"

/-- The `.value` string of a step status. -/
def StepStatus.value : StepStatus → String
  | .pending => "pending"
  | .running => "running"
  | .completed => "completed"
  | .failed => "failed"
  | .skipped => "skipped"

/-- Stage 4 of `run_task` (`pipeline.py:167-176`): terminal status and
error from the summary's counts. -/
def finalizeStatus (completedCount failedCount : ℕ) :
    TaskStatus × Option String :=
  if completedCount > 0 ∧ ¬failedCount > 0 then (.completed, none)
  else if completedCount > 0 ∧ failedCount > 0 then (.partialSt, none)
  else (.failed, some "All steps failed")

/-- One step's trace entry in `_build_trace` (the timing fields
`duration_ms`/`started_at`/`finished_at` are wall-clock readings the
model abstracts, as for a step that never ran). -/
def stepTraceEntry (st : DagState) (s : Step) : Val :=
  .vdict
    [("id", .vstr s.id),
     ("action", .vstr s.action),
     ("group", .vstr s.group),
     ("executor", .vstr s.executor.value),
     ("status", .vstr (st.stateOf s.id).status.value),
     ("cost_usd", .vnum (.pfloat (st.stateOf s.id).cost_usd)),
     ("retries", .vnum (.pint (st.stateOf s.id).retries))]

/-- The cost sum of `_build_trace`: `total_cost += step.cost_usd` over
the plan's steps. -/
def planCost (plan : List Step) (st : DagState) : ℚ :=
  (plan.map fun s => (st.stateOf s.id).cost_usd).sum

/-- `_build_trace(plan, plan_ms, exec_ms)` with the cost total rounded
to six decimals as the source does. -/
def buildTrace (plan : List Step) (st : DagState) (planMs execMs : ℤ) : Val :=
  .vdict
    [("planning_ms", .vnum (.pint planMs)),
     ("execution_ms", .vnum (.pint execMs)),
     ("total_cost_usd", .vnum (.pfloat (pyRound 6 (planCost plan st)))),
     ("steps", .vlist (plan.map (stepTraceEntry st)))]

/-- The observable outcome of `run_task`: the task's terminal fields,
the `task_done` event payload, and the final plan's execution state. -/
structure PipeResult : Type where
  status : TaskStatus
  error : Option String
  cost_usd : ℚ
  duration_ms : ℤ
  task_done_data : List (String × Val)
  replanned : Bool
  finalPlan : List Step
  finalState : DagState
  finalSummary : DagSummary

/-- Stages 4–6 of `run_task` on the plan whose summary is being
finalized: status, `task.cost_usd = trace["total_cost_usd"]`,
`task.duration_ms = int((finished_at - created_at).total_seconds() *
1000)`, and the `task_done` payload (`pipeline.py:192-203` — its data
carries `steps_completed` and `steps_failed` and no skipped count). -/
def mkPipeEnd (plan : List Step) (st : DagState) (replanned : Bool)
    (createdAt finishedAt : ℚ) (planMs execMs : ℤ) : PipeResult :=
  let sum := summarize st
  let fs := finalizeStatus sum.completed sum.failed
  let cost := pyRound 6 (planCost plan st)
  let dur := qTrunc ((finishedAt - createdAt) * 1000)
  { status := fs.1
    error := fs.2
    cost_usd := cost
    duration_ms := dur
    task_done_data :=
      [("status", .vstr fs.1.value),
       ("cost_usd", .vnum (.pfloat cost)),
       ("duration_ms", .vnum (.pint dur)),
       ("steps_completed", .vnum (.pint sum.completed)),
       ("steps_failed", .vnum (.pint sum.failed)),
       ("trace", buildTrace plan st planMs execMs)]
    replanned
    finalPlan := plan
    finalState := st
    finalSummary := sum }

/-- `run_task` without its fault floor: execute the first plan; when no
step completed and some failed (`pipeline.py:126`), replan and execute
the replacement plan; finalize on the last summary.  `none` only when a
`dagLoop` fuel runs out, which `dag_terminates` below rules out for
sufficient fuel. -/
def runTaskModel (plan1 : List Step) (oracle1 : String → Val)
    (chooser1 : ℕ → ℕ) (plan2 : List Step) (oracle2 : String → Val)
    (chooser2 : ℕ → ℕ) (fuel1 fuel2 : ℕ) (createdAt finishedAt : ℚ)
    (planMs execMs : ℤ) : Option PipeResult := do
  let st1 ← dagRun oracle1 chooser1 fuel1 plan1
  let sum1 := summarize st1
  if sum1.completed = 0 ∧ sum1.failed > 0 then
    let st2 ← dagRun oracle2 chooser2 fuel2 plan2
    pure (mkPipeEnd plan2 st2 true createdAt finishedAt planMs execMs)
  else
    pure (mkPipeEnd plan1 st1 false createdAt finishedAt planMs execMs)

/-- A generic successful backend result used in the C4 run. -/
def okResult : Val :=
  .vdict [("success", .vbool true), ("data", .vstr "fine")]

/-- The attempt sequence of the C4 counterexample: the first attempt
fails with a `CircuitOpenError`-named exception carrying the breaker's
message, the next attempt succeeds. -/
def coAttempts : ℕ → Attempt := fun a =>
  if a = 0 then
    .exc "CircuitOpenError" "Circuit breaker 'bedrock' is OPEN. Retry after 30.0s"
  else .ok okResult

/-- Fresh step ids for the concrete planner runs (the model's stand-in
for `uuid4().hex[:8]`). -/
def sid (n : ℕ) : String := "s" ++ toString n

/-- A raw planner reply whose two steps depend on each other by index:
a dependency cycle. -/
def rawCyc : List RawItem :=
  [{ action := some "extract", target := some "https://a.com",
     description := some "d", executor := some "browser", group := some "g",
     depends_on := [.idx 1] },
   { action := some "extract", target := some "https://a.com",
     description := some "d", executor := some "browser", group := some "g",
     depends_on := [.idx 0] }]

/-- A raw planner reply with a string dependency naming no step. -/
def rawGhost : List RawItem :=
  [{ action := some "extract", target := some "https://a.com",
     description := some "d", executor := some "browser", group := some "g",
     depends_on := [.name "ghost"] }]

/-- The buckets of the C8 scenario: capacity `max_concurrent_tasks = 2`,
refill rate `max_tasks_per_minute / 60 = 1` token per second, after
zero, one and two admissions at time 0. -/
def bkt0 : TokenBucket := mkBucket 2 1 0

def bktA : TokenBucket := ⟨2, 1, 1, 0⟩

def bktB : TokenBucket := ⟨2, 1, 0, 0⟩

/-- The sort-key reading of a product used by `keyLt`. -/
def prodKey (p : Val) : ℚ × ℚ :=
  (Rat.neg (qOf ((p.getKey "rating").getD (.vnum (.pint 0)))),
   qOf ((p.getKey "price").getD (.vnum (.pint 0))))

/-- The dedup invariant of the product collector: collected idents are
duplicate-free and all recorded as seen. -/
def pinv (acc : List Val × List String) : Prop :=
  (acc.1.map identOf).Nodup ∧ ∀ i ∈ acc.1.map identOf, i ∈ acc.2

/-- The product `X` of the C9 scenario. -/
def prodX : Val :=
  .vdict [("name", .vstr "X"), ("price", .vnum (.pint 100)),
    ("rating", .vnum (.pfloat (mkRat 9 2))), ("source", .vstr "a")]

/-- The product `Y` of the C9 scenario. -/
def prodY : Val :=
  .vdict [("name", .vstr "Y"), ("price", .vnum (.pint 90)),
    ("rating", .vnum (.pfloat (mkRat 9 2))), ("source", .vstr "a")]

/-- The C9 scenario plan: two extract steps, the second producing a
duplicate of `X`. -/
def planC9 : FmtPlan :=
  { original_command := "find laptops"
    steps :=
      [⟨"extract", some (.vdict [("success", .vbool true),
         ("extracted", .vlist [prodX, prodY])])⟩,
       ⟨"extract", some (.vdict [("success", .vbool true),
         ("extracted", .vlist [prodX])])⟩] }

/-- Two products with different `(name, source)` pairs whose
hyphen-joined dedup strings collide: `("a-b", "c")` and
`("a", "b-c")` both render `"a-b-c"`. -/
def prodP : Val :=
  .vdict [("name", .vstr "a-b"), ("price", .vnum (.pint 1)),
    ("rating", .vnum (.pint 1)), ("source", .vstr "c")]

def prodQ : Val :=
  .vdict [("name", .vstr "a"), ("price", .vnum (.pint 2)),
    ("rating", .vnum (.pint 1)), ("source", .vstr "b-c")]

/-- A plan whose single extract step yields `prodP` and `prodQ`. -/
def planC9cex : FmtPlan :=
  { original_command := "cmd"
    steps :=
      [⟨"extract", some (.vdict [("success", .vbool true),
         ("extracted", .vlist [prodP, prodQ])])⟩] }

/-- The ids of a plan's steps. -/
def planIds (plan : List Step) : List String := plan.map Step.id

/-- The master invariant of the scheduler loop. -/
structure Inv (st : DagState) : Prop where
  pend_nodup : st.pending.Nodup
  pend_sub : ∀ sid ∈ st.pending, sid ∈ planIds st.plan
  run_nodup : st.running.Nodup
  run_sub : ∀ sid ∈ st.running, sid ∈ planIds st.plan
  run_status : ∀ sid ∈ st.running, (st.stateOf sid).status = .running
  comp_sub : ∀ sid ∈ st.completedL.map Prod.fst, sid ∈ planIds st.plan
  comp_iff : ∀ sid, sid ∈ st.completedL.map Prod.fst ↔
      (st.stateOf sid).status = .completed
  fail_sub : ∀ sid ∈ st.failedIds, sid ∈ planIds st.plan
  fail_status : ∀ sid ∈ st.failedIds, (st.stateOf sid).status = .failed ∨
      (st.stateOf sid).status = .skipped
  fail_of_failed : ∀ sid, (st.stateOf sid).status = .failed → sid ∈ st.failedIds
  fail_witness : st.failedIds ≠ [] →
      ∃ sid ∈ st.failedIds, (st.stateOf sid).status = .failed
  deliv : ∀ pr ∈ st.delivered, ∃ s : Step, findStep st.plan pr.1 = some s ∧
      (∀ d ∈ s.depends_on, ((st.completedL.lookup d).isSome : Prop)) ∧
      (s.depends_on ≠ [] →
        pr.2 = s.depends_on.filterMap (st.completedL.lookup ·))
  launched : ∀ sid, ((st.stateOf sid).status = .running ∨
      (st.stateOf sid).status = .completed ∨
      (st.stateOf sid).status = .failed) → sid ∈ st.delivered.map Prod.fst

/-- A skipped step is in the failed-id set and owes its skip to a
dependency in the failed-id set. -/
def SkipInv (st : DagState) : Prop :=
  ∀ sid, (st.stateOf sid).status = .skipped →
    sid ∈ st.failedIds ∧
    ∃ s, findStep st.plan sid = some s ∧ ∃ d ∈ s.depends_on, d ∈ st.failedIds

/-! ## Concrete runs for the scenario claims -/

/-- A plan step with the given id, dependencies and executor. -/
def mkStepE (id : String) (deps : List String) (ex : ExecutorType) : Step :=
  ⟨id, "extract", "https://site.example", "step", ex, "g", deps, 2⟩

/-- A successful worker result. -/
def okDict : Val := .vdict [("success", .vbool true)]

/-- A failing worker result with error `"boom"`. -/
def boomDict : Val := .vdict [("success", .vbool false), ("error", .vstr "boom")]

/-- The chooser that always takes the first running worker. -/
def ch0 : ℕ → ℕ := fun _ => 0

/-- The chain A → B → C of the C1 scenario. -/
def planC1 : List Step :=
  [mkStepE "A" [] .browser, mkStepE "B" ["A"] .browser, mkStepE "C" ["B"] .browser]

/-- Step A fails, everything else would succeed. -/
def oracleC1 : String → Val := fun sid => if sid = "A" then boomDict else okDict

/-- The scheduler's final state on the C1 chain. -/
def stC1 : DagState := (dagRun oracleC1 ch0 10 planC1).getD (initState planC1)

/-- The pipeline outcome on the C1 chain (the replan, forced because no
step completed, runs the same chain again). -/
def pipeC1 : PipeResult :=
  (runTaskModel planC1 oracleC1 ch0 planC1 oracleC1 ch0 10 10 0 0 0 0).getD
    (mkPipeEnd planC1 (initState planC1) false 0 0 0 0)

/-- Two independent steps, the second an `llm` step with no explicit
dependencies (the C6 scenario). -/
def planC6 : List Step := [mkStepE "A" [] .browser, mkStepE "B" [] .llm]

/-- Every step succeeds. -/
def oracleOk : String → Val := fun _ => okDict

/-- The scheduler's final state on the C6 plan. -/
def stC6 : DagState := (dagRun oracleOk ch0 10 planC6).getD (initState planC6)

/-- The C10 plan: E fails, F depends on E, G names a dependency no step
has, H depends on itself. -/
def planC10 : List Step :=
  [mkStepE "E" [] .browser, mkStepE "F" ["E"] .browser,
   mkStepE "G" ["nope"] .browser, mkStepE "H" ["H"] .browser]

/-- Step E fails, everything else would succeed. -/
def oracleC10 : String → Val := fun sid => if sid = "E" then boomDict else okDict

/-- The scheduler's final state on the C10 plan. -/
def stC10 : DagState := (dagRun oracleC10 ch0 10 planC10).getD (initState planC10)

/-- The pipeline outcome on the all-successful C6 plan, with the task
created at 0 and finished at 1. -/
def pipeC7 : PipeResult :=
  (runTaskModel planC6 oracleOk ch0 planC6 oracleOk ch0 10 10 0 1 0 0).getD
    (mkPipeEnd planC6 (initState planC6) false 0 1 0 0)

/-! ## Circuit-breaker lemmas and the claim C5 theorem -/

theorem recordFailures_append (b : CircuitBreaker) (l1 l2 : List ℚ) :
    recordFailures b (l1 ++ l2) = recordFailures (recordFailures b l1) l2 := by
  induction l1 generalizing b with
  | nil => rfl
  | cons t ts ih => simp [recordFailures, ih]

theorem on_failure_closed_below (b : CircuitBreaker) (t : ℚ)
    (hb : b.state = .closed)
    (hc : b.failure_count + 1 < b.failure_threshold) :
    (b.on_failure t).state = .closed ∧
      (b.on_failure t).failure_count = b.failure_count + 1 := by
  simp only [CircuitBreaker.on_failure, hb]
  have : ¬ b.failure_count + 1 ≥ b.failure_threshold := by omega
  simp [this]

theorem on_failure_threshold (b : CircuitBreaker) (t : ℚ) :
    (b.on_failure t).failure_threshold = b.failure_threshold := by
  simp only [CircuitBreaker.on_failure]
  cases b.state
  · dsimp; split <;> rfl
  · rfl
  · rfl

theorem recordFailures_stay_closed (k : ℕ) (ts : List ℚ) (b : CircuitBreaker)
    (hb : b.state = .closed)
    (hc : b.failure_count + k < b.failure_threshold)
    (hl : k ≤ ts.length) :
    (recordFailures b (ts.take k)).state = .closed ∧
      (recordFailures b (ts.take k)).failure_count = b.failure_count + k := by
  induction k generalizing b ts with
  | zero => simpa [recordFailures] using hb
  | succ k ih =>
    cases ts with
    | nil => simp at hl
    | cons t rest =>
      simp only [List.take_succ_cons, recordFailures]
      obtain ⟨h1, h2⟩ := on_failure_closed_below b t hb (by omega)
      have hth := on_failure_threshold b t
      obtain ⟨h3, h4⟩ := ih rest (b.on_failure t) h1 (by omega) (by simpa using hl)
      exact ⟨h3, by omega⟩

theorem recordFailures_threshold (ts : List ℚ) (b : CircuitBreaker) :
    (recordFailures b ts).failure_threshold = b.failure_threshold := by
  induction ts generalizing b with
  | nil => rfl
  | cons t rest ih => rw [recordFailures, ih, on_failure_threshold]

theorem on_failure_opens (b : CircuitBreaker) (t : ℚ)
    (hb : b.state = .closed)
    (hc : b.failure_count + 1 ≥ b.failure_threshold) :
    (b.on_failure t).state = .opened ∧
      (b.on_failure t).failure_count = b.failure_count + 1 := by
  simp only [CircuitBreaker.on_failure, hb]
  have : b.failure_count + 1 ≥ b.failure_threshold := hc
  simp [this]

theorem recordFailures_opens (ts : List ℚ) (b : CircuitBreaker)
    (hb : b.state = .closed) (hc : b.failure_count = 0)
    (hth : 1 ≤ b.failure_threshold) (hl : b.failure_threshold ≤ ts.length) :
    (recordFailures b (ts.take b.failure_threshold)).state = .opened ∧
      (recordFailures b (ts.take b.failure_threshold)).failure_count =
        b.failure_threshold := by
  obtain ⟨n, hn⟩ : ∃ n, b.failure_threshold = n + 1 :=
    ⟨b.failure_threshold - 1, by omega⟩
  obtain ⟨t, ht⟩ : ∃ t, ts[n]? = some t := by
    have : n < ts.length := by omega
    exact ⟨ts[n], List.getElem?_eq_getElem this⟩
  obtain ⟨h1, h2⟩ := recordFailures_stay_closed n ts b hb (by omega) (by omega)
  have hth' := recordFailures_threshold (ts.take n) b
  rw [hn, List.take_succ, recordFailures_append, ht]
  obtain ⟨h3, h4⟩ :=
    on_failure_opens (recordFailures b (ts.take n)) t h1 (by omega)
  refine ⟨h3, ?_⟩
  simp only [Option.toList_some, recordFailures] at *
  omega

/-- Claim C5: starting from a closed breaker with failure count 0, a
sequence of consecutive recorded failures leaves the breaker closed with
count `k` after any `k < failure_threshold` of them and opens it exactly
at the `failure_threshold`-th; while open before the recovery timeout
has elapsed, entry fails fast with `CircuitOpen(retry_after)` where
`retry_after = recovery_timeout − (now − last_failure_time)`; once the
timeout has elapsed the state reads as `half_open` (the lazy
`open → half_open` transition on read); and a success recorded in
`half_open` state closes the breaker with the failure count reset to
0. -/
theorem c5_circuit_breaker_contract :
    (∀ (b : CircuitBreaker) (ts : List ℚ), b.state = .closed →
      b.failure_count = 0 → 1 ≤ b.failure_threshold →
      (∀ k, k < b.failure_threshold → k ≤ ts.length →
        (recordFailures b (ts.take k)).state = .closed ∧
          (recordFailures b (ts.take k)).failure_count = k) ∧
      (b.failure_threshold ≤ ts.length →
        (recordFailures b (ts.take b.failure_threshold)).state = .opened ∧
          (recordFailures b (ts.take b.failure_threshold)).failure_count =
            b.failure_threshold)) ∧
    (∀ (b : CircuitBreaker) (now : ℚ), b.state = .opened →
      now - b.last_failure_time < b.recovery_timeout →
      b.enter now =
        .error ⟨b.name, b.recovery_timeout - (now - b.last_failure_time)⟩) ∧
    (∀ (b : CircuitBreaker) (now : ℚ), b.state = .opened →
      b.recovery_timeout ≤ now - b.last_failure_time →
      (b.readState now).2 = .half_open ∧
        (b.readState now).1.state = .half_open) ∧
    (∀ b : CircuitBreaker, b.state = .half_open →
      b.on_success.state = .closed ∧ b.on_success.failure_count = 0) := by
  refine ⟨?_, ?_, ?_, ?_⟩
  · intro b ts hb hc hth
    refine ⟨fun k hk hkl => ?_, fun hl => recordFailures_opens ts b hb hc hth hl⟩
    obtain ⟨hA, hB⟩ := recordFailures_stay_closed k ts b hb (by omega) hkl
    exact ⟨hA, by omega⟩
  · intro b now hb hlt
    have hcond : ¬(b.state = .opened ∧ now - b.last_failure_time ≥ b.recovery_timeout) := by
      rintro ⟨-, h⟩; linarith
    simp only [CircuitBreaker.enter, CircuitBreaker.readState]
    rw [if_neg hcond]
    simp only [hb]
    rw [max_eq_right (by linarith : (0:ℚ) ≤ b.recovery_timeout - (now - b.last_failure_time))]
  · intro b now hb hge
    simp only [CircuitBreaker.readState]
    rw [if_pos ⟨hb, hge⟩]
    exact ⟨rfl, rfl⟩
  · intro b hb
    simp [CircuitBreaker.on_success, hb]

/-- Witness for C5 at the `bedrock` configuration (`threshold=5`,
`timeout=30`). -/
theorem c5_circuit_breaker_contract_witness :
    ((recordFailures (mkBreaker "bedrock" 5 30) ([1, 2, 3, 4, 5].take 3)).state
        = .closed ∧
      (recordFailures (mkBreaker "bedrock" 5 30) ([1, 2, 3, 4, 5].take 3)).failure_count
        = 3) ∧
    ((recordFailures (mkBreaker "bedrock" 5 30) ([1, 2, 3, 4, 5].take 5)).state
        = .opened ∧
      (recordFailures (mkBreaker "bedrock" 5 30) ([1, 2, 3, 4, 5].take 5)).failure_count
        = 5) ∧
    ({ mkBreaker "bedrock" 5 30 with state := .opened }.enter 5 =
      .error ⟨"bedrock", 30 - (5 - 0)⟩) ∧
    (({ mkBreaker "bedrock" 5 30 with state := .opened }.readState 31).2
        = .half_open) ∧
    ({ mkBreaker "bedrock" 5 30 with state := .half_open }.on_success.state
        = .closed ∧
      { mkBreaker "bedrock" 5 30 with state := .half_open }.on_success.failure_count
        = 0) := by
  obtain ⟨h1, h2, h3, h4⟩ := c5_circuit_breaker_contract
  refine ⟨?_, ?_, ?_, ?_, ?_⟩
  · exact (h1 (mkBreaker "bedrock" 5 30) [1, 2, 3, 4, 5] rfl rfl (by decide)).1
      3 (by decide) (by decide)
  · exact (h1 (mkBreaker "bedrock" 5 30) [1, 2, 3, 4, 5] rfl rfl
      (by decide)).2 (by decide)
  · have := h2 { mkBreaker "bedrock" 5 30 with state := .opened } 5 rfl
      (by norm_num [mkBreaker])
    simpa [mkBreaker] using this
  · exact (h3 { mkBreaker "bedrock" 5 30 with state := .opened } 31 rfl
      (by norm_num [mkBreaker])).1
  · exact h4 { mkBreaker "bedrock" 5 30 with state := .half_open } rfl

/-! ## Step-executor retry lemmas and claim C4

`execute_step` consults no circuit breaker: the loop body dispatches to
the backend and classifies exceptions only by `_NO_RETRY_PATTERNS`.  A
`CircuitOpenError` raised below it would be an ordinary retryable
exception. -/

/-- Claim C4 counterexample: with `max_retries = 1`, an attempt that
fails with `CircuitOpenError` is retried — the executor returns the
second attempt's successful result with `step.retries = 1`, not the
breaker's error — because `"CircuitOpenError"` matches no pattern of
`_NO_RETRY_PATTERNS` and `execute_step` consults no breaker.  The claim
would require the returned dict to be the `success: False` dict carrying
the breaker message verbatim. -/
theorem c4_counterexample :
    (execute_step_model coAttempts 1).result = okResult ∧
    (execute_step_model coAttempts 1).retries = 1 ∧
    no_retry "CircuitOpenError" = false ∧
    (execute_step_model coAttempts 1).result ≠
      failDict "CircuitOpenError"
        "Circuit breaker 'bedrock' is OPEN. Retry after 30.0s" := by
  refine ⟨rfl, rfl, rfl, ?_⟩
  intro h
  rw [show (execute_step_model coAttempts 1).result = okResult from rfl] at h
  simp [okResult, failDict] at h

theorem execRetryF_exhausts (attempts : ℕ → Attempt) (maxR : ℕ) (kL mL : String)
    (hL : attempts maxR = .exc kL mL) :
    ∀ fuel a, maxR - a = fuel → a ≤ maxR →
    (∀ j, a ≤ j → j ≤ maxR → ∃ k m, attempts j = .exc k m ∧ no_retry k = false) →
    execRetryF attempts maxR fuel a = ⟨failDict kL mL, maxR + 1, none⟩ := by
  intro fuel
  induction fuel with
  | zero =>
    intro a hd hle hall
    have ha : a = maxR := by omega
    subst ha
    obtain ⟨k, m, hj, hnr⟩ := hall a le_rfl le_rfl
    rw [hL] at hj
    obtain ⟨hk, hm⟩ : kL = k ∧ mL = m := by
      injection hj with h1 h2; exact ⟨h1, h2⟩
    subst hk; subst hm
    rw [execRetryF.eq_def]
    dsimp only
    rw [hL]
    simp [hnr]
  | succ fuel ih =>
    intro a hd hle hall
    have hlt : a < maxR := by omega
    rw [execRetryF.eq_def]
    dsimp only
    obtain ⟨k, m, hj, hnr⟩ := hall a le_rfl (by omega)
    rw [hj]
    simp only [hnr, Bool.false_eq_true, if_false, hlt, if_true]
    exact ih (a + 1) (by omega) (by omega) fun j h1 h2 => hall j (by omega) h2

/-- Claim C4, amended: `execute_step` guards no attempt with a circuit
breaker; an attempt failing with `CircuitOpenError` is treated as an
ordinary transient error and retried while retries remain (first
conjunct: after such a first attempt the outcome is that of the loop
continued at attempt 1); the only non-retryable errors are those whose
type name contains an `ExceededMaxSteps` pattern, surfaced immediately
as `{"success": False, "error": "<kind>: <message>"}` (second
conjunct); a successful attempt returns its result with
`retries = attempt` and writes `result.get("cost_usd", 0.0)` to the
step (third conjunct); and on exhaustion the same failure dict is built
from the last error with `retries = max_retries + 1` (fourth
conjunct). -/
theorem c4_executor_no_breaker :
    (∀ (attempts : ℕ → Attempt) (maxR : ℕ) (k m : String),
      attempts 0 = .exc k m → no_retry k = false → 1 ≤ maxR →
      execute_step_model attempts maxR = execRetryF attempts maxR (maxR - 1) 1) ∧
    (∀ (attempts : ℕ → Attempt) (maxR : ℕ) (k m : String),
      attempts 0 = .exc k m → no_retry k = true →
      execute_step_model attempts maxR = ⟨failDict k m, 1, none⟩) ∧
    (∀ (attempts : ℕ → Attempt) (maxR : ℕ) (r : Val),
      attempts 0 = .ok r →
      execute_step_model attempts maxR =
        ⟨r, 0, some (qOf ((r.getKey "cost_usd").getD (.vnum (.pfloat 0))))⟩) ∧
    (∀ (attempts : ℕ → Attempt) (maxR : ℕ) (kL mL : String),
      attempts maxR = .exc kL mL →
      (∀ j, j ≤ maxR → ∃ k m, attempts j = .exc k m ∧ no_retry k = false) →
      execute_step_model attempts maxR = ⟨failDict kL mL, maxR + 1, none⟩) := by
  refine ⟨?_, ?_, ?_, ?_⟩
  · intro A maxR k m h0 hnr h1
    obtain ⟨n, rfl⟩ : ∃ n, maxR = n + 1 := ⟨maxR - 1, by omega⟩
    rw [execute_step_model, execRetryF.eq_def]
    dsimp only
    rw [h0]
    simp [hnr]
  · intro A maxR k m h0 hnr
    rw [execute_step_model, execRetryF.eq_def]
    dsimp only
    rw [h0]
    simp [hnr]
  · intro A maxR r h0
    rw [execute_step_model, execRetryF.eq_def]
    dsimp only
    rw [h0]
  · intro A maxR kL mL hL hall
    exact execRetryF_exhausts A maxR kL mL hL maxR 0 (by omega) (by omega)
      fun j _ h2 => hall j h2

/-- Witness for C4 at concrete attempt sequences. -/
theorem c4_executor_no_breaker_witness :
    (execute_step_model coAttempts 1 = execRetryF coAttempts 1 0 1) ∧
    (execute_step_model (fun _ => .exc "ActExceededMaxStepsError" "too many steps") 2 =
      ⟨failDict "ActExceededMaxStepsError" "too many steps", 1, none⟩) ∧
    (execute_step_model (fun _ => .ok okResult) 2 =
      ⟨okResult, 0, some (qOf ((okResult.getKey "cost_usd").getD (.vnum (.pfloat 0))))⟩) ∧
    (execute_step_model (fun _ => .exc "ReadTimeout" "slow upstream") 1 =
      ⟨failDict "ReadTimeout" "slow upstream", 2, none⟩) := by
  obtain ⟨h1, h2, h3, h4⟩ := c4_executor_no_breaker
  refine ⟨?_, ?_, ?_, ?_⟩
  · exact h1 coAttempts 1 "CircuitOpenError"
      "Circuit breaker 'bedrock' is OPEN. Retry after 30.0s" rfl rfl le_rfl
  · exact h2 (fun _ => .exc "ActExceededMaxStepsError" "too many steps") 2
      "ActExceededMaxStepsError" "too many steps" rfl (by decide)
  · exact h3 (fun _ => .ok okResult) 2 okResult rfl
  · exact h4 (fun _ => .exc "ReadTimeout" "slow upstream") 1 "ReadTimeout"
      "slow upstream" rfl fun j _ => ⟨"ReadTimeout", "slow upstream", rfl, by decide⟩

/-! ## Planner-adapter lemmas and claim C3 -/

theorem isSome_omap (f : α → β) (x : Option α) :
    (Option.map f x).isSome = x.isSome := by
  cases x <;> rfl

theorem mkRawStep_some (idOf : ℕ → String) (i : ℕ) (item : RawItem) (s : Step)
    (h : mkRawStep idOf i item = some s) : s.id = idOf i := by
  simp only [mkRawStep, Option.map_eq_some'] at h
  obtain ⟨ex, -, rfl⟩ := h
  rfl

theorem firstPass_isSome (idOf : ℕ → String) :
    ∀ (raw : List RawItem) (i : ℕ),
    (firstPass idOf i raw).isSome ↔
      ∀ item ∈ raw, (parseExecutor (item.executor.getD "browser")).isSome := by
  intro raw
  induction raw with
  | nil => intro i; simp [firstPass]
  | cons item rest ih =>
    intro i
    simp only [firstPass, List.mem_cons]
    constructor
    · intro h
      match h1 : mkRawStep idOf i item, h2 : firstPass idOf (i + 1) rest with
      | some s, some ss =>
        intro x hx
        rcases hx with rfl | hx
        · have := h1
          simp only [mkRawStep, Option.map_eq_some'] at this
          obtain ⟨ex, hex, -⟩ := this
          simp [hex]
        · exact ((ih (i + 1)).1 (by simp [h2])) x hx
      | some s, none => rw [h1, h2] at h; simp at h
      | none, some ss => rw [h1, h2] at h; simp at h
      | none, none => rw [h1, h2] at h; simp at h
    · intro h
      have hhd : (mkRawStep idOf i item).isSome := by
        have hx := h item (Or.inl rfl)
        rw [mkRawStep, isSome_omap]
        exact hx
      have htl : (firstPass idOf (i + 1) rest).isSome :=
        (ih (i + 1)).2 fun x hx => h x (Or.inr hx)
      obtain ⟨s, hs⟩ := Option.isSome_iff_exists.1 hhd
      obtain ⟨ss, hss⟩ := Option.isSome_iff_exists.1 htl
      rw [hs, hss]
      rfl

theorem firstPass_spec (idOf : ℕ → String) :
    ∀ (raw : List RawItem) (i : ℕ) (ss : List Step),
    firstPass idOf i raw = some ss →
    ss.length = raw.length ∧
      ∀ j (h : j < raw.length) (hj : j < ss.length),
        mkRawStep idOf (i + j) raw[j] = some ss[j] := by
  intro raw
  induction raw with
  | nil =>
    intro i ss h
    simp only [firstPass, Option.some_inj] at h
    subst h
    simp
  | cons item rest ih =>
    intro i ss h
    match h1 : mkRawStep idOf i item, h2 : firstPass idOf (i + 1) rest with
    | some s, some ss' =>
      rw [firstPass, h1, h2, Option.some_inj] at h
      subst h
      obtain ⟨hl, hspec⟩ := ih (i + 1) ss' h2
      refine ⟨by simp [hl], ?_⟩
      intro j hjr hjs
      cases j with
      | zero => simpa using h1
      | succ j =>
        have := hspec j (by simpa using hjr) (by simpa using hjs)
        simpa [Nat.add_assoc, Nat.add_comm 1 j] using this
    | some s, none => rw [firstPass, h1, h2] at h; simp at h
    | none, some ss' => rw [firstPass, h1, h2] at h; simp at h
    | none, none => rw [firstPass, h1, h2] at h; simp at h

/-- Claim C3, amended: the Planner Adapter validates nothing about the
dependency graph.  Ingestion rejects a raw plan exactly when some item
carries an executor value outside `{browser, llm}`; an accepted plan has
one step per raw item, the `i`-th carrying the fresh id `idOf i` and a
dependency list obtained by mapping in-range integer references to fresh
ids, passing string references through unexamined and dropping
everything else — so cycles and dependency identifiers naming no step of
the plan are accepted. -/
theorem c3_planner_ingestion_behavior :
    (∀ (raw : List RawItem) (idOf : ℕ → String),
      (steps_from_raw raw idOf).isSome ↔
        ∀ item ∈ raw, (parseExecutor (item.executor.getD "browser")).isSome) ∧
    (∀ (raw : List RawItem) (idOf : ℕ → String) (steps : List Step),
      steps_from_raw raw idOf = some steps →
      steps.length = raw.length ∧
        ∀ j (h1 : j < steps.length) (h2 : j < raw.length),
          steps[j].id = idOf j ∧
          steps[j].depends_on =
            raw[j].depends_on.flatMap (resolveDep idOf raw.length)) := by
  constructor
  · intro raw idOf
    rw [steps_from_raw, isSome_omap]
    exact firstPass_isSome idOf raw 0
  · intro raw idOf steps h
    simp only [steps_from_raw, Option.map_eq_some'] at h
    obtain ⟨base, hbase, rfl⟩ := h
    obtain ⟨hl, hspec⟩ := firstPass_spec idOf raw 0 base hbase
    have hlen : (base.zipWith
        (fun s item => { s with depends_on :=
          item.depends_on.flatMap (resolveDep idOf raw.length) }) raw).length
        = raw.length := by
      simp [List.length_zipWith, hl]
    refine ⟨hlen, ?_⟩
    intro j h1 h2
    have hjb : j < base.length := by omega
    have hz : (base.zipWith
        (fun s item => { s with depends_on :=
          item.depends_on.flatMap (resolveDep idOf raw.length) }) raw)[j] =
        { base[j] with depends_on :=
          raw[j].depends_on.flatMap (resolveDep idOf raw.length) } :=
      List.getElem_zipWith ..
    rw [hz]
    have hid : base[j].id = idOf j := by
      have := hspec j h2 hjb
      have := mkRawStep_some idOf (0 + j) raw[j] base[j] this
      simpa using this
    exact ⟨hid, rfl⟩

/-- Claim C3 counterexample: `_steps_from_raw` accepts the two-step
cyclic plan (no hard error) and produces mutually dependent steps, and
likewise accepts a dependency identifier that resolves to no step of
the plan — against the claim that either is rejected at ingestion and
that accepted plans are acyclic with resolving dependencies. -/
theorem c3_counterexample :
    (steps_from_raw rawCyc sid).isSome = true ∧
    ((steps_from_raw rawCyc sid).getD []).map (fun s => (s.id, s.depends_on)) =
      [("s0", ["s1"]), ("s1", ["s0"])] ∧
    (steps_from_raw rawGhost sid).isSome = true ∧
    ((steps_from_raw rawGhost sid).getD []).map (fun s => (s.id, s.depends_on)) =
      [("s0", ["ghost"])] ∧
    "ghost" ∉ ((steps_from_raw rawGhost sid).getD []).map Step.id :=
  ⟨rfl, rfl, rfl, rfl, by decide⟩

/-- Witness for C3's amended theorem at the concrete cyclic plan. -/
theorem c3_planner_ingestion_behavior_witness :
    ((steps_from_raw rawCyc sid).isSome ↔
      ∀ item ∈ rawCyc, (parseExecutor (item.executor.getD "browser")).isSome) ∧
    (((steps_from_raw rawCyc sid).getD []).length = rawCyc.length ∧
      ∀ j (_h1 : j < ((steps_from_raw rawCyc sid).getD []).length)
        (h2 : j < rawCyc.length),
        ((steps_from_raw rawCyc sid).getD [])[j].id = sid j ∧
        ((steps_from_raw rawCyc sid).getD [])[j].depends_on =
          rawCyc[j].depends_on.flatMap (resolveDep sid rawCyc.length)) :=
  ⟨c3_planner_ingestion_behavior.1 rawCyc sid,
   c3_planner_ingestion_behavior.2 rawCyc sid
     ((steps_from_raw rawCyc sid).getD []) rfl⟩

/-! ## Token-bucket lemmas and claim C8 -/

theorem dispatch_admitted (b : TokenBucket) (now : ℚ) (maxPM : ℕ)
    (b' : TokenBucket) (h : b.consume now = (b', true)) :
    dispatchModel b now maxPM =
      (b', ⟨200,
        [("RateLimit-Limit", toString maxPM),
         ("RateLimit-Remaining", toString (qTrunc b'.tokens))], none⟩) := by
  simp [dispatchModel, h]

theorem dispatch_rejected (b : TokenBucket) (now : ℚ) (maxPM : ℕ)
    (b' : TokenBucket) (h : b.consume now = (b', false)) :
    dispatchModel b now maxPM =
      (b', ⟨429,
        [("Retry-After", toString (qTrunc (pyRound 1 b'.retry_after) + 1)),
         ("RateLimit-Limit", toString maxPM),
         ("RateLimit-Remaining", "0")],
        some (pyRound 1 b'.retry_after)⟩) := by
  simp [dispatchModel, h]

theorem bkt0_consume : bkt0.consume 0 = (bktA, true) := by
  rw [TokenBucket.consume]
  norm_num [bkt0, bktA, mkBucket, Prod.ext_iff, TokenBucket.mk.injEq]

theorem bktA_consume : bktA.consume 0 = (bktB, true) := by
  rw [TokenBucket.consume]
  norm_num [bktA, bktB, Prod.ext_iff, TokenBucket.mk.injEq]

theorem bktB_consume : bktB.consume 0 = (bktB, false) := by
  rw [TokenBucket.consume]
  norm_num [bktB, Prod.ext_iff, TokenBucket.mk.injEq]

theorem pyRound_one_bktB : pyRound 1 bktB.retry_after = 1 := by
  rw [TokenBucket.retry_after]
  norm_num [bktB, pyRound, round_eq]

theorem consume_spec (b : TokenBucket) (now : ℚ) :
    ((b.consume now).2 = true ↔
      1 ≤ min b.capacity (b.tokens + (now - b.last_refill) * b.refill_rate)) ∧
    (b.consume now).1.last_refill = now ∧
    ((b.consume now).2 = true → (b.consume now).1.tokens =
      min b.capacity (b.tokens + (now - b.last_refill) * b.refill_rate) - 1) ∧
    ((b.consume now).2 = false → (b.consume now).1.tokens =
      min b.capacity (b.tokens + (now - b.last_refill) * b.refill_rate)) := by
  rw [TokenBucket.consume]
  split
  · rename_i h
    refine ⟨by simpa using h, rfl, fun _ => rfl, fun hf => by simp at hf⟩
  · rename_i h
    refine ⟨?_, rfl, fun ht => by simp at ht, fun _ => rfl⟩
    simp only [Bool.false_eq_true, false_iff]
    intro hc
    exact h hc

/-- Claim C8: each request refills the client's bucket to
`min(capacity, tokens + elapsed·rate)` and stamps the refill time; it is
admitted, consuming one token, exactly when the refilled level is at
least 1, and otherwise rejected with
`retry_after = (1 − tokens) / rate` over the refilled level (first
three conjuncts).  With `max_tasks_per_minute = 60` and
`max_concurrent_tasks = 2`, three immediate requests from one client
are: admitted with `RateLimit-Remaining: 1`, admitted with
`RateLimit-Remaining: 0`, and rejected with HTTP 429 and
`retry_after = 1.0 s` (last three conjuncts). -/
theorem c8_token_bucket :
    (∀ (b : TokenBucket) (now : ℚ),
      ((b.consume now).2 = true ↔
        1 ≤ min b.capacity (b.tokens + (now - b.last_refill) * b.refill_rate)) ∧
      (b.consume now).1.last_refill = now ∧
      ((b.consume now).2 = true → (b.consume now).1.tokens =
        min b.capacity (b.tokens + (now - b.last_refill) * b.refill_rate) - 1) ∧
      ((b.consume now).2 = false → (b.consume now).1.tokens =
        min b.capacity (b.tokens + (now - b.last_refill) * b.refill_rate))) ∧
    (∀ b : TokenBucket, b.tokens < 1 →
      b.retry_after = (1 - b.tokens) / b.refill_rate) ∧
    (∀ (b : TokenBucket) (now : ℚ) (maxPM : ℕ) (b' : TokenBucket),
      b.consume now = (b', false) →
      (dispatchModel b now maxPM).2.status = 429 ∧
      (dispatchModel b now maxPM).2.retry_after_body =
        some (pyRound 1 ((1 - b'.tokens) / b'.refill_rate))) ∧
    (dispatchModel bkt0 0 60 =
      (bktA, ⟨200, [("RateLimit-Limit", "60"), ("RateLimit-Remaining", "1")],
        none⟩)) ∧
    (dispatchModel bktA 0 60 =
      (bktB, ⟨200, [("RateLimit-Limit", "60"), ("RateLimit-Remaining", "0")],
        none⟩)) ∧
    ((dispatchModel bktB 0 60).2.status = 429 ∧
      (dispatchModel bktB 0 60).2.retry_after_body = some 1 ∧
      (dispatchModel bktB 0 60).2.headers.lookup "RateLimit-Remaining" =
        some "0") := by
  refine ⟨consume_spec, ?_, ?_, ?_, ?_, ?_⟩
  · intro b hlt
    rw [TokenBucket.retry_after, if_neg (by linarith)]
  · intro b now maxPM b' h
    rw [dispatch_rejected b now maxPM b' h]
    refine ⟨rfl, ?_⟩
    obtain ⟨hiff, -, -, hfa⟩ := consume_spec b now
    rw [h] at hiff hfa
    have htoks : b'.tokens =
        min b.capacity (b.tokens + (now - b.last_refill) * b.refill_rate) :=
      hfa rfl
    have hlt : b'.tokens < 1 := by
      by_contra hx
      push_neg at hx
      have hb : (false : Bool) = true := hiff.2 (htoks ▸ hx)
      simp at hb
    rw [TokenBucket.retry_after, if_neg (by linarith)]
  · rw [dispatch_admitted _ _ _ _ bkt0_consume]
    rfl
  · rw [dispatch_admitted _ _ _ _ bktA_consume]
    rfl
  · rw [dispatch_rejected _ _ _ _ bktB_consume, pyRound_one_bktB]
    exact ⟨rfl, rfl, rfl⟩

/-- Witness for C8 at the scenario's drained bucket. -/
theorem c8_token_bucket_witness :
    (bktB.retry_after = (1 - bktB.tokens) / bktB.refill_rate) ∧
    ((dispatchModel bktB 0 60).2.status = 429 ∧
      (dispatchModel bktB 0 60).2.retry_after_body =
        some (pyRound 1 ((1 - bktB.tokens) / bktB.refill_rate))) ∧
    ((bkt0.consume 0).2 = true ↔
      1 ≤ min bkt0.capacity
        (bkt0.tokens + ((0 : ℚ) - bkt0.last_refill) * bkt0.refill_rate)) :=
  ⟨c8_token_bucket.2.1 bktB (by decide),
   c8_token_bucket.2.2.1 bktB 0 60 bktB bktB_consume,
   (c8_token_bucket.1 bkt0 0).1⟩

/-! ## Output-formatter lemmas and claim C9 -/

theorem sinsert_mem (lt : α → α → Bool) (x b : α) :
    ∀ l : List α, b ∈ sinsert lt x l → b = x ∨ b ∈ l := by
  intro l
  induction l with
  | nil => intro h; simpa [sinsert] using h
  | cons y ys ih =>
    rw [sinsert]
    split
    · intro h
      rcases List.mem_cons.1 h with rfl | h'
      · exact Or.inl rfl
      · exact Or.inr h'
    · intro h
      rcases List.mem_cons.1 h with rfl | h'
      · exact Or.inr (List.mem_cons_self _ _)
      · rcases ih h' with h2 | h2
        · exact Or.inl h2
        · exact Or.inr (List.mem_cons_of_mem y h2)

theorem sinsert_pairwise (lt : α → α → Bool)
    (hneg : ∀ a b c, lt a b = false → lt b c = false → lt a c = false)
    (hasym : ∀ a b, lt a b = true → lt b a = false)
    (x : α) :
    ∀ l : List α, l.Pairwise (fun a b => lt b a = false) →
    (sinsert lt x l).Pairwise (fun a b => lt b a = false) := by
  intro l
  induction l with
  | nil => intro _; simp [sinsert]
  | cons y ys ih =>
    intro hl
    obtain ⟨hy, hys⟩ := List.pairwise_cons.1 hl
    rw [sinsert]
    by_cases hxy : lt x y = true
    · rw [if_pos hxy]
      refine List.pairwise_cons.2 ⟨?_, hl⟩
      intro b hb
      rcases List.mem_cons.1 hb with rfl | hb'
      · exact hasym x b hxy
      · exact hneg b y x (hy b hb') (hasym x y hxy)
    · rw [if_neg hxy]
      refine List.pairwise_cons.2 ⟨?_, ih hys⟩
      intro b hb
      rcases sinsert_mem lt x b ys hb with rfl | hb'
      · exact Bool.not_eq_true _ ▸ (Bool.eq_false_iff.2 hxy)
      · exact hy b hb'

theorem ssort_pairwise (lt : α → α → Bool)
    (hneg : ∀ a b c, lt a b = false → lt b c = false → lt a c = false)
    (hasym : ∀ a b, lt a b = true → lt b a = false)
    (l : List α) :
    (ssort lt l).Pairwise (fun a b => lt b a = false) := by
  rw [ssort]
  suffices h : ∀ acc : List α, acc.Pairwise (fun a b => lt b a = false) →
      (l.foldl (fun acc x => sinsert lt x acc) acc).Pairwise
        (fun a b => lt b a = false) from h [] (by simp)
  induction l with
  | nil => intro acc hacc; simpa using hacc
  | cons x xs ih =>
    intro acc hacc
    exact ih (sinsert lt x acc) (sinsert_pairwise lt hneg hasym x acc hacc)

theorem keyLt_iff (p q : Val) :
    keyLt p q = true ↔
      (prodKey p).1 < (prodKey q).1 ∨
        ((prodKey p).1 = (prodKey q).1 ∧ (prodKey p).2 < (prodKey q).2) := by
  rw [keyLt, prodKey, prodKey]
  dsimp only
  split
  · rename_i h
    simp [h]
  · rename_i h
    split
    · rename_i he
      simp [he, h]
    · rename_i he
      simp [h, he]

theorem keyLt_false_iff (p q : Val) :
    keyLt p q = false ↔
      (prodKey q).1 < (prodKey p).1 ∨
        ((prodKey q).1 = (prodKey p).1 ∧ (prodKey q).2 ≤ (prodKey p).2) := by
  rw [← Bool.not_eq_true, keyLt_iff]
  constructor
  · intro h
    push_neg at h
    obtain ⟨hle, himp⟩ := h
    rcases eq_or_lt_of_le hle with heq | hlt
    · exact Or.inr ⟨heq, himp heq.symm⟩
    · exact Or.inl hlt
  · intro h
    push_neg
    rcases h with h1 | ⟨h1, h2⟩
    · exact ⟨le_of_lt h1, fun he => absurd he.symm (ne_of_lt h1)⟩
    · exact ⟨le_of_eq h1, fun _ => h2⟩

theorem keyLt_asym (p q : Val) (h : keyLt p q = true) : keyLt q p = false := by
  rw [keyLt_iff] at h
  rw [keyLt_false_iff]
  rcases h with h1 | ⟨h1, h2⟩
  · exact Or.inl h1
  · exact Or.inr ⟨h1, le_of_lt h2⟩

theorem keyLt_negtrans (a b c : Val) (h1 : keyLt a b = false)
    (h2 : keyLt b c = false) : keyLt a c = false := by
  rw [keyLt_false_iff] at h1 h2 ⊢
  rcases h1 with h1 | ⟨h1a, h1b⟩ <;> rcases h2 with h2 | ⟨h2a, h2b⟩
  · exact Or.inl (lt_trans h2 h1)
  · exact Or.inl (by rw [h2a]; exact h1)
  · exact Or.inl (by rw [← h1a]; exact h2)
  · exact Or.inr ⟨by rw [h2a, h1a], le_trans h2b h1b⟩

theorem foldl_inv {α β : Type _} (f : α → β → α) (P : α → Prop)
    (hf : ∀ a b, P a → P (f a b)) :
    ∀ (l : List β) (a : α), P a → P (l.foldl f a) := by
  intro l
  induction l with
  | nil => intro a h; simpa using h
  | cons x xs ih => intro a h; exact ih (f a x) (hf a x h)

theorem addOne_pinv (acc : List Val × List String) (item : Val)
    (h : pinv acc) : pinv (addOne acc item) := by
  rw [addOne]
  split
  · exact h
  · split
    · exact h
    · rename_i hnp hmem
      obtain ⟨hnd, hsub⟩ := h
      constructor
      · simp only [List.map_append, List.map_cons, List.map_nil]
        rw [List.nodup_append]
        refine ⟨hnd, List.nodup_singleton _, ?_⟩
        intro i hi
        simp only [List.mem_singleton]
        intro he
        exact hmem (he ▸ hsub i hi)
      · intro i hi
        simp only [List.map_append, List.map_cons, List.map_nil,
          List.mem_append, List.mem_singleton] at hi
        rcases hi with hi | hi
        · exact List.mem_append_left _ (hsub i hi)
        · exact List.mem_append_right _ (by simp [hi])

theorem addOne_seen (acc : List Val × List String) (item : Val) (s : String)
    (h : s ∈ acc.2) : s ∈ (addOne acc item).2 := by
  rw [addOne]
  split
  · exact h
  · split
    · exact h
    · exact List.mem_append_left _ h

theorem addProducts_pinv (items : List Val) (acc : List Val × List String)
    (h : pinv acc) : pinv (addProducts items acc) :=
  foldl_inv addOne pinv addOne_pinv items acc h

theorem probeKey_pinv (d : List (String × Val)) (acc : List Val × List String)
    (k : String) (h : pinv acc) : pinv (probeKey d acc k) := by
  rw [probeKey]
  split
  · exact addProducts_pinv _ _ h
  · exact h

theorem addFromKeys_pinv (d : List (String × Val))
    (acc : List Val × List String) (h : pinv acc) : pinv (addFromKeys d acc) :=
  foldl_inv (probeKey d) pinv (probeKey_pinv d) productKeys acc h

theorem collectStep_pinv (acc : List Val × List String) (st : FmtStep)
    (h : pinv acc) : pinv (collectStep acc st) := by
  rw [collectStep]
  split
  · rename_i d
    split
    · exact addProducts_pinv _ _ (addFromKeys_pinv _ _ h)
    · exact addFromKeys_pinv _ _ (addFromKeys_pinv _ _ h)
    · exact addFromKeys_pinv _ _ h
  · exact h

/-- The collector's dedup really is by the hyphen-joined ident string:
collected products have pairwise distinct `identOf` values. -/
theorem collect_products_nodup (plan : FmtPlan) :
    ((collect_products plan).map identOf).Nodup := by
  rw [collect_products]
  exact (foldl_inv collectStep pinv collectStep_pinv plan.steps ([], [])
    ⟨by simp, by simp⟩).1

/-- Claim C9 counterexample: the collector deduplicates by the string
`f"{name}-{source}"`, not by the pair `(name, source)`: `prodP` and
`prodQ` differ in both name and source, yet the second is dropped as a
duplicate of the first and the JSON output reports a single result. -/
theorem c9_counterexample :
    collect_products planC9cex = [prodP] ∧
    identOf prodP = identOf prodQ ∧
    pyStr ((prodP.getKey "name").getD .vnull) = "a-b" ∧
    pyStr ((prodQ.getKey "name").getD .vnull) = "a" ∧
    (format_json planC9cex).getKey "total_results" = some (.vnum (.pint 1)) :=
  ⟨rfl, rfl, rfl, rfl, rfl⟩

/-- Claim C9, amended: products are collected by probing `extracted`,
`products`, `ranked` and a nested `response` value, deduplicated by the
string `name + "-" + source` (first occurrence kept; the map of dedup
strings over the collection is duplicate-free, sixth conjunct), and
sorted stably by the key `(−rating, price)` (every output is pairwise
ordered under that key, fifth conjunct); on the scenario's two extract
results the JSON output has `total_results = 2` with results `[Y, X]`,
the CSV output starts with the `name,price,rating,source` header line,
and the summary output is `Results for: <command>`, a blank line, then
`1. Y — $90 (4.5 stars) from a`. -/
theorem c9_output_formatting :
    collect_products planC9 = [prodX, prodY] ∧
    format_json planC9 =
      .vdict [("command", .vstr "find laptops"),
        ("total_results", .vnum (.pint 2)),
        ("results", .vlist [prodY, prodX]),
        ("summary", .vnull)] ∧
    format_csv planC9 =
      "name,price,rating,source\r\nY,90,4.5,a\r\nX,100,4.5,a\r\n" ∧
    format_summary planC9 =
      "Results for: find laptops\n\n1. Y — $90 (4.5 stars) from a\n2. X — $100 (4.5 stars) from a" ∧
    (∀ plan : FmtPlan,
      (sortedProducts plan).Pairwise (fun a b => keyLt b a = false)) ∧
    (∀ plan : FmtPlan, ((collect_products plan).map identOf).Nodup) := by
  refine ⟨rfl, rfl, rfl, rfl, ?_, collect_products_nodup⟩
  intro plan
  rw [sortedProducts]
  split
  · exact List.Pairwise.nil
  · exact ssort_pairwise keyLt keyLt_negtrans keyLt_asym _

/-! ## DAG-scheduler invariants

The lemmas below characterise one `_get_ready_steps` scan (`scanP`),
then one launch and one result processing, and are chained through the
main loop by induction on the fuel. -/

theorem mem_insertId_self (l : List String) (x : String) :
    x ∈ insertId l x := by
  rw [insertId]
  split
  · assumption
  · exact List.mem_append_right _ (by simp)

theorem mem_insertId_of_mem (l : List String) (x y : String) (h : y ∈ l) :
    y ∈ insertId l x := by
  rw [insertId]
  split
  · exact h
  · exact List.mem_append_left _ h

theorem mem_of_mem_insertId (l : List String) (x y : String)
    (h : y ∈ insertId l x) : y ∈ l ∨ y = x := by
  rw [insertId] at h
  split at h
  · exact Or.inl h
  · rcases List.mem_append.1 h with h' | h'
    · exact Or.inl h'
    · exact Or.inr (by simpa using h')

theorem scanP_failed_mono (plan : List Step) (completedL : List (String × Val)) :
    ∀ (pending : List String) (stOf : String → StepState)
      (failed : List String) (sid : String), sid ∈ failed →
    sid ∈ (scanP plan completedL stOf failed pending).failed := by
  intro pending
  induction pending with
  | nil => intro stOf failed sid h; exact h
  | cons p rest ih =>
    intro stOf failed sid h
    rw [scanP]
    cases hfind : findStep plan p with
    | none => exact ih stOf failed sid h
    | some step =>
      dsimp only
      by_cases h1 : (stOf p).status ≠ .pending
      · rw [if_pos h1]; exact ih stOf failed sid h
      · rw [if_neg h1]
        by_cases h2 : step.depends_on ≠ [] ∧ ∃ d ∈ step.depends_on, d ∈ failed
        · rw [if_pos h2]
          exact ih _ _ sid (mem_insertId_of_mem failed p sid h)
        · rw [if_neg h2]
          by_cases h3 : ∀ d ∈ step.depends_on, ((completedL.lookup d).isSome : Prop)
          · rw [if_pos h3]; exact ih stOf failed sid h
          · rw [if_neg h3]; exact ih stOf failed sid h

theorem scanP_stOf (plan : List Step) (completedL : List (String × Val)) :
    ∀ (pending : List String) (stOf : String → StepState)
      (failed : List String) (sid : String),
    (scanP plan completedL stOf failed pending).stOf sid = stOf sid ∨
      ((stOf sid).status = .pending ∧
        (scanP plan completedL stOf failed pending).stOf sid =
          skipMark (stOf sid) ∧
        sid ∈ (scanP plan completedL stOf failed pending).failed) := by
  intro pending
  induction pending with
  | nil => intro stOf failed sid; exact Or.inl rfl
  | cons p rest ih =>
    intro stOf failed sid
    rw [scanP]
    cases hfind : findStep plan p with
    | none => exact ih stOf failed sid
    | some step =>
      dsimp only
      by_cases h1 : (stOf p).status ≠ .pending
      · rw [if_pos h1]; exact ih stOf failed sid
      · rw [if_neg h1]
        by_cases h2 : step.depends_on ≠ [] ∧ ∃ d ∈ step.depends_on, d ∈ failed
        · rw [if_pos h2]
          rcases ih (updState stOf p (skipMark (stOf p))) (insertId failed p) sid
            with h | ⟨hp, he, hf⟩
          · rw [h, updState]
            by_cases hps : sid = p
            · subst hps
              refine Or.inr ⟨not_not.1 h1, by simp, ?_⟩
              exact scanP_failed_mono plan completedL rest _ _ sid
                (mem_insertId_self failed sid)
            · rw [if_neg hps]; exact Or.inl rfl
          · by_cases hps : sid = p
            · subst hps
              rw [updState] at hp
              simp [skipMark] at hp
            · rw [updState, if_neg hps] at hp he
              exact Or.inr ⟨hp, he, hf⟩
        · rw [if_neg h2]
          by_cases h3 : ∀ d ∈ step.depends_on, ((completedL.lookup d).isSome : Prop)
          · rw [if_pos h3]; exact ih stOf failed sid
          · rw [if_neg h3]; exact ih stOf failed sid

theorem scanP_stOf_notmem (plan : List Step) (completedL : List (String × Val)) :
    ∀ (pending : List String) (stOf : String → StepState)
      (failed : List String) (sid : String), sid ∉ pending →
    (scanP plan completedL stOf failed pending).stOf sid = stOf sid := by
  intro pending
  induction pending with
  | nil => intro stOf failed sid _; rfl
  | cons p rest ih =>
    intro stOf failed sid hmem
    have hne : sid ≠ p := fun he => hmem (he ▸ List.mem_cons_self p rest)
    have hrest : sid ∉ rest := fun hr => hmem (List.mem_cons_of_mem p hr)
    rw [scanP]
    cases hfind : findStep plan p with
    | none => exact ih stOf failed sid hrest
    | some step =>
      dsimp only
      by_cases h1 : (stOf p).status ≠ .pending
      · rw [if_pos h1]; exact ih stOf failed sid hrest
      · rw [if_neg h1]
        by_cases h2 : step.depends_on ≠ [] ∧ ∃ d ∈ step.depends_on, d ∈ failed
        · rw [if_pos h2]
          rw [ih _ _ sid hrest, updState, if_neg hne]
        · rw [if_neg h2]
          by_cases h3 : ∀ d ∈ step.depends_on, ((completedL.lookup d).isSome : Prop)
          · rw [if_pos h3]; exact ih stOf failed sid hrest
          · rw [if_neg h3]; exact ih stOf failed sid hrest

theorem scanP_newPending_sublist (plan : List Step)
    (completedL : List (String × Val)) :
    ∀ (pending : List String) (stOf : String → StepState)
      (failed : List String),
    (scanP plan completedL stOf failed pending).newPending.Sublist pending := by
  intro pending
  induction pending with
  | nil => intro stOf failed; simp [scanP]
  | cons p rest ih =>
    intro stOf failed
    rw [scanP]
    cases hfind : findStep plan p with
    | none => exact (ih stOf failed).cons p
    | some step =>
      dsimp only
      by_cases h1 : (stOf p).status ≠ .pending
      · rw [if_pos h1]; exact (ih stOf failed).cons p
      · rw [if_neg h1]
        by_cases h2 : step.depends_on ≠ [] ∧ ∃ d ∈ step.depends_on, d ∈ failed
        · rw [if_pos h2]; exact (ih _ _).cons p
        · rw [if_neg h2]
          by_cases h3 : ∀ d ∈ step.depends_on, ((completedL.lookup d).isSome : Prop)
          · rw [if_pos h3]; exact (ih stOf failed).cons p
          · rw [if_neg h3]; exact (ih stOf failed).cons₂ p

theorem findStep_id (plan : List Step) (sid : String) (s : Step)
    (h : findStep plan sid = some s) : s.id = sid := by
  have := List.find?_some h
  simpa using this

theorem scanP_eq_drop (plan : List Step) (completedL : List (String × Val))
    (stOf : String → StepState) (failed pending : List String) (p : String)
    (hfind : findStep plan p = none) :
    scanP plan completedL stOf failed (p :: pending) =
      scanP plan completedL stOf failed pending := by
  rw [scanP, hfind]

theorem scanP_eq_moved (plan : List Step) (completedL : List (String × Val))
    (stOf : String → StepState) (failed pending : List String) (p : String)
    (step : Step) (hfind : findStep plan p = some step)
    (h1 : (stOf p).status ≠ .pending) :
    scanP plan completedL stOf failed (p :: pending) =
      scanP plan completedL stOf failed pending := by
  rw [scanP, hfind]; dsimp only; rw [if_pos h1]

theorem scanP_eq_skip (plan : List Step) (completedL : List (String × Val))
    (stOf : String → StepState) (failed pending : List String) (p : String)
    (step : Step) (hfind : findStep plan p = some step)
    (h1 : ¬(stOf p).status ≠ .pending)
    (h2 : step.depends_on ≠ [] ∧ ∃ d ∈ step.depends_on, d ∈ failed) :
    scanP plan completedL stOf failed (p :: pending) =
      scanP plan completedL (updState stOf p (skipMark (stOf p)))
        (insertId failed p) pending := by
  rw [scanP, hfind]; dsimp only; rw [if_neg h1, if_pos h2]

theorem scanP_eq_ready (plan : List Step) (completedL : List (String × Val))
    (stOf : String → StepState) (failed pending : List String) (p : String)
    (step : Step) (hfind : findStep plan p = some step)
    (h1 : ¬(stOf p).status ≠ .pending)
    (h2 : ¬(step.depends_on ≠ [] ∧ ∃ d ∈ step.depends_on, d ∈ failed))
    (h3 : ∀ d ∈ step.depends_on, ((completedL.lookup d).isSome : Prop)) :
    scanP plan completedL stOf failed (p :: pending) =
      ⟨step :: (scanP plan completedL stOf failed pending).ready,
       (scanP plan completedL stOf failed pending).newPending,
       (scanP plan completedL stOf failed pending).stOf,
       (scanP plan completedL stOf failed pending).failed⟩ := by
  rw [scanP, hfind]; dsimp only; rw [if_neg h1, if_neg h2, if_pos h3]

theorem scanP_eq_stay (plan : List Step) (completedL : List (String × Val))
    (stOf : String → StepState) (failed pending : List String) (p : String)
    (step : Step) (hfind : findStep plan p = some step)
    (h1 : ¬(stOf p).status ≠ .pending)
    (h2 : ¬(step.depends_on ≠ [] ∧ ∃ d ∈ step.depends_on, d ∈ failed))
    (h3 : ¬∀ d ∈ step.depends_on, ((completedL.lookup d).isSome : Prop)) :
    scanP plan completedL stOf failed (p :: pending) =
      ⟨(scanP plan completedL stOf failed pending).ready,
       p :: (scanP plan completedL stOf failed pending).newPending,
       (scanP plan completedL stOf failed pending).stOf,
       (scanP plan completedL stOf failed pending).failed⟩ := by
  rw [scanP, hfind]; dsimp only; rw [if_neg h1, if_neg h2, if_neg h3]

theorem scanP_ready (plan : List Step) (completedL : List (String × Val)) :
    ∀ (pending : List String) (stOf : String → StepState)
      (failed : List String), pending.Nodup →
    ∀ s ∈ (scanP plan completedL stOf failed pending).ready,
      findStep plan s.id = some s ∧ s.id ∈ pending ∧
      ((scanP plan completedL stOf failed pending).stOf s.id).status = .pending ∧
      ∀ d ∈ s.depends_on, ((completedL.lookup d).isSome : Prop) := by
  intro pending
  induction pending with
  | nil => intro stOf failed _ s hs; simp [scanP] at hs
  | cons p rest ih =>
    intro stOf failed hnd s hs
    obtain ⟨hp, hrest⟩ := List.nodup_cons.1 hnd
    cases hfind : findStep plan p with
    | none =>
      have heq : scanP plan completedL stOf failed (p :: rest) =
          scanP plan completedL stOf failed rest := by rw [scanP, hfind]
      rw [heq] at hs ⊢
      obtain ⟨ha, hb, hc, hd⟩ := ih stOf failed hrest s hs
      exact ⟨ha, List.mem_cons_of_mem p hb, hc, hd⟩
    | some step =>
      by_cases h1 : (stOf p).status ≠ .pending
      · have heq : scanP plan completedL stOf failed (p :: rest) =
            scanP plan completedL stOf failed rest := by
          rw [scanP, hfind]; dsimp only; rw [if_pos h1]
        rw [heq] at hs ⊢
        obtain ⟨ha, hb, hc, hd⟩ := ih stOf failed hrest s hs
        exact ⟨ha, List.mem_cons_of_mem p hb, hc, hd⟩
      · by_cases h2 : step.depends_on ≠ [] ∧ ∃ d ∈ step.depends_on, d ∈ failed
        · have heq : scanP plan completedL stOf failed (p :: rest) =
              scanP plan completedL (updState stOf p (skipMark (stOf p)))
                (insertId failed p) rest := by
            rw [scanP, hfind]; dsimp only; rw [if_neg h1, if_pos h2]
          rw [heq] at hs ⊢
          obtain ⟨ha, hb, hc, hd⟩ := ih _ _ hrest s hs
          exact ⟨ha, List.mem_cons_of_mem p hb, hc, hd⟩
        · by_cases h3 : ∀ d ∈ step.depends_on, ((completedL.lookup d).isSome : Prop)
          · have heq : scanP plan completedL stOf failed (p :: rest) =
                ⟨step :: (scanP plan completedL stOf failed rest).ready,
                 (scanP plan completedL stOf failed rest).newPending,
                 (scanP plan completedL stOf failed rest).stOf,
                 (scanP plan completedL stOf failed rest).failed⟩ := by
              rw [scanP, hfind]; dsimp only; rw [if_neg h1, if_neg h2, if_pos h3]
            rw [heq] at hs ⊢
            dsimp only at hs ⊢
            rcases List.mem_cons.1 hs with rfl | hs'
            · have hid : s.id = p := findStep_id plan p s hfind
              refine ⟨hid ▸ hfind, hid ▸ List.mem_cons_self p rest, ?_, h3⟩
              rw [hid, scanP_stOf_notmem plan completedL rest stOf failed p hp]
              exact not_not.1 h1
            · obtain ⟨ha, hb, hc, hd⟩ := ih stOf failed hrest s hs'
              exact ⟨ha, List.mem_cons_of_mem p hb, hc, hd⟩
          · have heq : scanP plan completedL stOf failed (p :: rest) =
                ⟨(scanP plan completedL stOf failed rest).ready,
                 p :: (scanP plan completedL stOf failed rest).newPending,
                 (scanP plan completedL stOf failed rest).stOf,
                 (scanP plan completedL stOf failed rest).failed⟩ := by
              rw [scanP, hfind]; dsimp only; rw [if_neg h1, if_neg h2, if_neg h3]
            rw [heq] at hs ⊢
            dsimp only at hs ⊢
            obtain ⟨ha, hb, hc, hd⟩ := ih stOf failed hrest s hs
            exact ⟨ha, List.mem_cons_of_mem p hb, hc, hd⟩

theorem scanP_ready_nodup (plan : List Step) (completedL : List (String × Val)) :
    ∀ (pending : List String) (stOf : String → StepState)
      (failed : List String), pending.Nodup →
    ((scanP plan completedL stOf failed pending).ready.map Step.id).Nodup := by
  intro pending
  induction pending with
  | nil => intro stOf failed _; simp [scanP]
  | cons p rest ih =>
    intro stOf failed hnd
    obtain ⟨hp, hrest⟩ := List.nodup_cons.1 hnd
    cases hfind : findStep plan p with
    | none => rw [scanP_eq_drop plan completedL stOf failed rest p hfind]
              exact ih stOf failed hrest
    | some step =>
      by_cases h1 : (stOf p).status ≠ .pending
      · rw [scanP_eq_moved plan completedL stOf failed rest p step hfind h1]
        exact ih stOf failed hrest
      · by_cases h2 : step.depends_on ≠ [] ∧ ∃ d ∈ step.depends_on, d ∈ failed
        · rw [scanP_eq_skip plan completedL stOf failed rest p step hfind h1 h2]
          exact ih _ _ hrest
        · by_cases h3 : ∀ d ∈ step.depends_on, ((completedL.lookup d).isSome : Prop)
          · rw [scanP_eq_ready plan completedL stOf failed rest p step hfind h1 h2 h3]
            dsimp only
            rw [List.map_cons, List.nodup_cons]
            refine ⟨?_, ih stOf failed hrest⟩
            intro hcon
            obtain ⟨t, ht, hts⟩ := List.mem_map.1 hcon
            obtain ⟨-, htp, -, -⟩ := scanP_ready plan completedL rest stOf failed hrest t ht
            rw [hts, findStep_id plan p step hfind] at htp
            exact hp htp
          · rw [scanP_eq_stay plan completedL stOf failed rest p step hfind h1 h2 h3]
            exact ih stOf failed hrest

theorem scanP_count (plan : List Step) (completedL : List (String × Val)) :
    ∀ (pending : List String) (stOf : String → StepState)
      (failed : List String),
    (scanP plan completedL stOf failed pending).newPending.length +
      (scanP plan completedL stOf failed pending).ready.length ≤
      pending.length := by
  intro pending
  induction pending with
  | nil => intro stOf failed; simp [scanP]
  | cons p rest ih =>
    intro stOf failed
    cases hfind : findStep plan p with
    | none => rw [scanP_eq_drop plan completedL stOf failed rest p hfind]
              have := ih stOf failed; simp only [List.length_cons]; omega
    | some step =>
      by_cases h1 : (stOf p).status ≠ .pending
      · rw [scanP_eq_moved plan completedL stOf failed rest p step hfind h1]
        have := ih stOf failed; simp only [List.length_cons]; omega
      · by_cases h2 : step.depends_on ≠ [] ∧ ∃ d ∈ step.depends_on, d ∈ failed
        · rw [scanP_eq_skip plan completedL stOf failed rest p step hfind h1 h2]
          have := ih (updState stOf p (skipMark (stOf p))) (insertId failed p)
          simp only [List.length_cons]; omega
        · by_cases h3 : ∀ d ∈ step.depends_on, ((completedL.lookup d).isSome : Prop)
          · rw [scanP_eq_ready plan completedL stOf failed rest p step hfind h1 h2 h3]
            have := ih stOf failed
            simp only [List.length_cons]; omega
          · rw [scanP_eq_stay plan completedL stOf failed rest p step hfind h1 h2 h3]
            have := ih stOf failed
            simp only [List.length_cons]; omega

theorem scanP_failed_src (plan : List Step) (completedL : List (String × Val)) :
    ∀ (pending : List String) (stOf : String → StepState)
      (failed : List String) (sid : String),
    sid ∈ (scanP plan completedL stOf failed pending).failed →
    sid ∈ failed ∨ (sid ∈ pending ∧
      ((scanP plan completedL stOf failed pending).stOf sid).status = .skipped) := by
  intro pending
  induction pending with
  | nil => intro stOf failed sid h; exact Or.inl h
  | cons p rest ih =>
    intro stOf failed sid h
    cases hfind : findStep plan p with
    | none =>
      rw [scanP_eq_drop plan completedL stOf failed rest p hfind] at h ⊢
      rcases ih stOf failed sid h with h' | ⟨h', h''⟩
      · exact Or.inl h'
      · exact Or.inr ⟨List.mem_cons_of_mem p h', h''⟩
    | some step =>
      by_cases h1 : (stOf p).status ≠ .pending
      · rw [scanP_eq_moved plan completedL stOf failed rest p step hfind h1] at h ⊢
        rcases ih stOf failed sid h with h' | ⟨h', h''⟩
        · exact Or.inl h'
        · exact Or.inr ⟨List.mem_cons_of_mem p h', h''⟩
      · by_cases h2 : step.depends_on ≠ [] ∧ ∃ d ∈ step.depends_on, d ∈ failed
        · rw [scanP_eq_skip plan completedL stOf failed rest p step hfind h1 h2] at h ⊢
          rcases ih _ _ sid h with h' | ⟨h', h''⟩
          · rcases mem_of_mem_insertId failed p sid h' with h'' | rfl
            · exact Or.inl h''
            · refine Or.inr ⟨List.mem_cons_self _ _, ?_⟩
              rcases scanP_stOf plan completedL rest
                  (updState stOf sid (skipMark (stOf sid))) (insertId failed sid) sid
                with he | ⟨hpend, he, -⟩
              · rw [he]; simp [updState, skipMark]
              · simp [updState, skipMark] at hpend
          · exact Or.inr ⟨List.mem_cons_of_mem p h', h''⟩
        · by_cases h3 : ∀ d ∈ step.depends_on, ((completedL.lookup d).isSome : Prop)
          · rw [scanP_eq_ready plan completedL stOf failed rest p step hfind h1 h2 h3] at h ⊢
            dsimp only at h ⊢
            rcases ih stOf failed sid h with h' | ⟨h', h''⟩
            · exact Or.inl h'
            · exact Or.inr ⟨List.mem_cons_of_mem p h', h''⟩
          · rw [scanP_eq_stay plan completedL stOf failed rest p step hfind h1 h2 h3] at h ⊢
            dsimp only at h ⊢
            rcases ih stOf failed sid h with h' | ⟨h', h''⟩
            · exact Or.inl h'
            · exact Or.inr ⟨List.mem_cons_of_mem p h', h''⟩

theorem scanP_failed_nil (plan : List Step) (completedL : List (String × Val)) :
    ∀ (pending : List String) (stOf : String → StepState),
    (scanP plan completedL stOf [] pending).failed = [] := by
  intro pending
  induction pending with
  | nil => intro stOf; rfl
  | cons p rest ih =>
    intro stOf
    cases hfind : findStep plan p with
    | none => rw [scanP_eq_drop plan completedL stOf [] rest p hfind]; exact ih stOf
    | some step =>
      by_cases h1 : (stOf p).status ≠ .pending
      · rw [scanP_eq_moved plan completedL stOf [] rest p step hfind h1]; exact ih stOf
      · by_cases h2 : step.depends_on ≠ [] ∧ ∃ d ∈ step.depends_on, d ∈ []
        · exact absurd h2 (by simp)
        · by_cases h3 : ∀ d ∈ step.depends_on, ((completedL.lookup d).isSome : Prop)
          · rw [scanP_eq_ready plan completedL stOf [] rest p step hfind h1 h2 h3]
            exact ih stOf
          · rw [scanP_eq_stay plan completedL stOf [] rest p step hfind h1 h2 h3]
            exact ih stOf

theorem findStep_mem (plan : List Step) (sid : String) (s : Step)
    (h : findStep plan sid = some s) : s ∈ plan ∧ s.id ∈ planIds plan := by
  have hm := List.mem_of_find?_eq_some h
  exact ⟨hm, List.mem_map.2 ⟨s, hm, rfl⟩⟩

theorem findStep_self (plan : List Step) (hnd : (planIds plan).Nodup) :
    ∀ s ∈ plan, findStep plan s.id = some s := by
  induction plan with
  | nil => intro s hs; simp at hs
  | cons t rest ih =>
    intro s hs
    rw [planIds, List.map_cons, List.nodup_cons] at hnd
    obtain ⟨ht, hrest⟩ := hnd
    rcases List.mem_cons.1 hs with rfl | hs'
    · rw [findStep, List.find?_cons_of_pos _ (by simp)]
    · by_cases he : t.id = s.id
      · exfalso
        exact ht (he ▸ List.mem_map.2 ⟨s, hs', rfl⟩)
      · rw [findStep, List.find?_cons_of_neg _ (by simpa using fun hc => he hc)]
        exact ih hrest s hs'

theorem lookup_isSome_mem (l : List (String × Val)) (d : String)
    (h : (l.lookup d).isSome) : d ∈ l.map Prod.fst := by
  induction l with
  | nil => simp [List.lookup] at h
  | cons p rest ih =>
    by_cases he : d = p.1
    · simp [he]
    · have hb : (d == p.1) = false := beq_false_of_ne he
      rw [List.lookup] at h
      simp only [hb] at h
      exact List.mem_cons_of_mem _ (ih h)

theorem lookup_append_of_isSome (l : List (String × Val))
    (pr : String × Val) (d : String) (h : (l.lookup d).isSome) :
    (l ++ [pr]).lookup d = l.lookup d := by
  induction l with
  | nil => simp [List.lookup] at h
  | cons q rest ih =>
    by_cases he : d = q.1
    · simp [List.lookup, he]
    · have hb : (d == q.1) = false := beq_false_of_ne he
      rw [List.cons_append, List.lookup, List.lookup]
      simp only [hb]
      rw [List.lookup] at h
      simp only [hb] at h
      exact ih h

theorem filterMap_lookup_congr (l l' : List (String × Val))
    (deps : List String)
    (h : ∀ d ∈ deps, l'.lookup d = l.lookup d) :
    deps.filterMap (l.lookup ·) = deps.filterMap (l'.lookup ·) := by
  induction deps with
  | nil => rfl
  | cons d rest ih =>
    rw [List.filterMap_cons, List.filterMap_cons,
      h d (List.mem_cons_self _ _),
      ih fun x hx => h x (List.mem_cons_of_mem d hx)]

theorem initState_inv (plan : List Step) (hnd : (planIds plan).Nodup) :
    Inv (initState plan) := by
  refine ⟨hnd, fun sid h => h, List.nodup_nil, ?_, ?_, ?_, ?_, ?_, ?_, ?_, ?_, ?_, ?_⟩
  all_goals simp [initState, StepState.start, planIds]

theorem getReady_snd (st : DagState) :
    (getReady st).2 = { st with
      pending := (scanP st.plan st.completedL st.stateOf st.failedIds st.pending).newPending
      stateOf := (scanP st.plan st.completedL st.stateOf st.failedIds st.pending).stOf
      failedIds := (scanP st.plan st.completedL st.stateOf st.failedIds st.pending).failed } :=
  rfl

theorem getReady_fst (st : DagState) :
    (getReady st).1 = (scanP st.plan st.completedL st.stateOf st.failedIds st.pending).ready :=
  rfl

theorem getReady_inv (st : DagState) (hI : Inv st) : Inv (getReady st).2 := by
  rw [getReady_snd]
  refine ⟨?_, ?_, hI.run_nodup, hI.run_sub, ?_, hI.comp_sub, ?_, ?_, ?_, ?_, ?_, ?_, ?_⟩
  all_goals dsimp only
  · exact (scanP_newPending_sublist st.plan st.completedL st.pending st.stateOf
      st.failedIds).nodup hI.pend_nodup
  · intro sid h
    exact hI.pend_sub sid ((scanP_newPending_sublist st.plan st.completedL st.pending
      st.stateOf st.failedIds).subset h)
  · intro sid h
    rcases scanP_stOf st.plan st.completedL st.pending st.stateOf st.failedIds sid
      with he | ⟨hp, -, -⟩
    · rw [he]; exact hI.run_status sid h
    · rw [hI.run_status sid h] at hp; simp at hp
  · intro sid
    rcases scanP_stOf st.plan st.completedL st.pending st.stateOf st.failedIds sid
      with he | ⟨hp, he, -⟩
    · rw [he]; exact hI.comp_iff sid
    · rw [he]
      constructor
      · intro hmem
        rw [(hI.comp_iff sid).1 hmem] at hp; simp at hp
      · intro hc; simp [skipMark] at hc
  · intro sid h
    rcases scanP_failed_src st.plan st.completedL st.pending st.stateOf st.failedIds
      sid h with h' | ⟨h', -⟩
    · exact hI.fail_sub sid h'
    · exact hI.pend_sub sid h'
  · intro sid h
    rcases scanP_failed_src st.plan st.completedL st.pending st.stateOf st.failedIds
      sid h with h' | ⟨-, h''⟩
    · rcases scanP_stOf st.plan st.completedL st.pending st.stateOf st.failedIds sid
        with he | ⟨hp, -, -⟩
      · rw [he]; exact hI.fail_status sid h'
      · rcases hI.fail_status sid h' with hf | hf <;> rw [hf] at hp <;> simp at hp
    · exact Or.inr h''
  · intro sid h
    rcases scanP_stOf st.plan st.completedL st.pending st.stateOf st.failedIds sid
      with he | ⟨-, he, -⟩
    · rw [he] at h
      exact scanP_failed_mono st.plan st.completedL st.pending st.stateOf st.failedIds
        sid (hI.fail_of_failed sid h)
    · rw [he] at h; simp [skipMark] at h
  · intro hne
    by_cases hF : st.failedIds = []
    · exfalso
      rw [hF] at hne
      exact hne (scanP_failed_nil st.plan st.completedL st.pending st.stateOf)
    · obtain ⟨sid, hmem, hstat⟩ := hI.fail_witness hF
      refine ⟨sid, scanP_failed_mono st.plan st.completedL st.pending st.stateOf
        st.failedIds sid hmem, ?_⟩
      rcases scanP_stOf st.plan st.completedL st.pending st.stateOf st.failedIds sid
        with he | ⟨hp, -, -⟩
      · rw [he]; exact hstat
      · rw [hstat] at hp; simp at hp
  · intro pr hmem
    exact hI.deliv pr hmem
  · intro sid h
    rcases scanP_stOf st.plan st.completedL st.pending st.stateOf st.failedIds sid
      with he | ⟨-, he, -⟩
    · rw [he] at h; exact hI.launched sid h
    · rw [he] at h
      rcases h with h | h | h <;> simp [skipMark] at h

theorem launchStep_inv (st : DagState) (s : Step) (hI : Inv st)
    (hfind : findStep st.plan s.id = some s)
    (hpend : (st.stateOf s.id).status = .pending)
    (hdeps : ∀ d ∈ s.depends_on, ((st.completedL.lookup d).isSome : Prop)) :
    Inv (launchStep st s) := by
  have hsnotrun : s.id ∉ st.running := fun hc => by
    rw [hI.run_status s.id hc] at hpend; simp at hpend
  have hsnotfail : s.id ∉ st.failedIds := fun hc => by
    rcases hI.fail_status s.id hc with hf | hf <;> rw [hf] at hpend <;> simp at hpend
  rw [launchStep]
  refine ⟨hI.pend_nodup, hI.pend_sub, ?_, ?_, ?_, hI.comp_sub, ?_, hI.fail_sub,
    ?_, ?_, ?_, ?_, ?_⟩
  all_goals dsimp only
  · simp only [List.nodup_append, List.nodup_cons, List.nodup_nil]
    exact ⟨hI.run_nodup, ⟨by simp, trivial⟩, by simpa using hsnotrun⟩
  · intro sid h
    rcases List.mem_append.1 h with h' | h'
    · exact hI.run_sub sid h'
    · rw [List.mem_singleton.1 h']
      exact (findStep_mem st.plan s.id s hfind).2
  · intro sid h
    rcases List.mem_append.1 h with h' | h'
    · have hne : sid ≠ s.id := fun he => hsnotrun (he ▸ h')
      rw [updState, if_neg hne]
      exact hI.run_status sid h'
    · rw [List.mem_singleton.1 h', updState, if_pos rfl]
  · intro sid
    by_cases he : sid = s.id
    · subst he
      rw [updState, if_pos rfl]
      constructor
      · intro hmem
        rw [(hI.comp_iff s.id).1 hmem] at hpend; simp at hpend
      · intro hc; simp at hc
    · rw [updState, if_neg he]
      exact hI.comp_iff sid
  · intro sid h
    have hne : sid ≠ s.id := fun he => hsnotfail (he ▸ h)
    rw [updState, if_neg hne]
    exact hI.fail_status sid h
  · intro sid h
    by_cases he : sid = s.id
    · subst he
      rw [updState, if_pos rfl] at h; simp at h
    · rw [updState, if_neg he] at h
      exact hI.fail_of_failed sid h
  · intro hne
    obtain ⟨sid, hmem, hstat⟩ := hI.fail_witness hne
    have hne' : sid ≠ s.id := fun he => hsnotfail (he ▸ hmem)
    exact ⟨sid, hmem, by rw [updState, if_neg hne']; exact hstat⟩
  · intro pr hmem
    rcases List.mem_append.1 hmem with h' | h'
    · exact hI.deliv pr h'
    · rw [List.mem_singleton.1 h']
      refine ⟨s, hfind, hdeps, ?_⟩
      intro hd
      rw [collectContext, if_neg (fun hc => hd hc.1)]
  · intro sid h
    by_cases he : sid = s.id
    · subst he
      rw [List.map_append]
      exact List.mem_append.2 (Or.inr (by simp))
    · rw [updState, if_neg he] at h
      rw [List.map_append]
      exact List.mem_append.2 (Or.inl (hI.launched sid h))

theorem launchStep_plan (st : DagState) (s : Step) :
    (launchStep st s).plan = st.plan := rfl

theorem launchStep_pending (st : DagState) (s : Step) :
    (launchStep st s).pending = st.pending := rfl

theorem launchStep_completedL (st : DagState) (s : Step) :
    (launchStep st s).completedL = st.completedL := rfl

theorem launchFold_plan (rs : List Step) : ∀ st : DagState,
    (rs.foldl launchStep st).plan = st.plan := by
  induction rs with
  | nil => intro st; rfl
  | cons s rest ih => intro st; rw [List.foldl_cons, ih]; rfl

theorem launchFold_pending (rs : List Step) : ∀ st : DagState,
    (rs.foldl launchStep st).pending = st.pending := by
  induction rs with
  | nil => intro st; rfl
  | cons s rest ih => intro st; rw [List.foldl_cons, ih]; rfl

theorem launchFold_running (rs : List Step) : ∀ st : DagState,
    (rs.foldl launchStep st).running = st.running ++ rs.map Step.id := by
  induction rs with
  | nil => intro st; simp
  | cons s rest ih =>
    intro st
    rw [List.foldl_cons, ih, List.map_cons]
    simp [launchStep]

theorem launchFold_inv (rs : List Step) : ∀ st : DagState, Inv st →
    (rs.map Step.id).Nodup →
    (∀ s ∈ rs, findStep st.plan s.id = some s ∧
      (st.stateOf s.id).status = .pending ∧
      ∀ d ∈ s.depends_on, ((st.completedL.lookup d).isSome : Prop)) →
    Inv (rs.foldl launchStep st) := by
  induction rs with
  | nil => intro st hI _ _; exact hI
  | cons s rest ih =>
    intro st hI hnd hok
    rw [List.map_cons, List.nodup_cons] at hnd
    obtain ⟨hfind, hpend, hdeps⟩ := hok s (List.mem_cons_self s rest)
    rw [List.foldl_cons]
    refine ih (launchStep st s) (launchStep_inv st s hI hfind hpend hdeps) hnd.2 ?_
    intro t ht
    obtain ⟨hf, hp, hd⟩ := hok t (List.mem_cons_of_mem s ht)
    have hne : t.id ≠ s.id := fun he => hnd.1 (he ▸ List.mem_map.2 ⟨t, ht, rfl⟩)
    refine ⟨hf, ?_, hd⟩
    show ((updState st.stateOf s.id _ ) t.id).status = .pending
    rw [updState, if_neg hne]
    exact hp

theorem processResult_plan (st : DagState) (sid : String) (res : Val) :
    (processResult st sid res).plan = st.plan := by
  simp only [processResult]
  split <;> rfl

theorem processResult_pending (st : DagState) (sid : String) (res : Val) :
    (processResult st sid res).pending = st.pending := by
  simp only [processResult]
  split <;> rfl

theorem processResult_running (st : DagState) (sid : String) (res : Val) :
    (processResult st sid res).running = st.running.erase sid := by
  simp only [processResult]
  split <;> rfl

theorem processResult_inv (st : DagState) (sid : String) (res : Val)
    (hI : Inv st) (hrun : sid ∈ st.running) :
    Inv (processResult st sid res) := by
  have hstat := hI.run_status sid hrun
  have hsnotfail : sid ∉ st.failedIds := fun hc => by
    rcases hI.fail_status sid hc with hf | hf <;> rw [hf] at hstat <;> simp at hstat
  have hsnotcomp : sid ∉ st.completedL.map Prod.fst := fun hc => by
    rw [(hI.comp_iff sid).1 hc] at hstat; simp at hstat
  have herase : ∀ x, x ∈ st.running.erase sid → x ≠ sid ∧ x ∈ st.running :=
    fun x hx => (hI.run_nodup.mem_erase_iff).1 hx
  rw [processResult]
  dsimp only
  by_cases ht : truthy ((res.getKey "success").getD .vnull)
  · rw [if_pos ht]
    refine ⟨hI.pend_nodup, hI.pend_sub, ?_, ?_, ?_, ?_, ?_, hI.fail_sub, ?_, ?_,
      ?_, ?_, ?_⟩
    all_goals dsimp only
    · exact hI.run_nodup.erase sid
    · intro x hx
      exact hI.run_sub x (List.mem_of_mem_erase hx)
    · intro x hx
      obtain ⟨hne, hx'⟩ := herase x hx
      rw [updState, if_neg hne]
      exact hI.run_status x hx'
    · intro x hx
      rw [List.map_append] at hx
      rcases List.mem_append.1 hx with h' | h'
      · exact hI.comp_sub x h'
      · have hxe : x = sid := by simpa using h'
        rw [hxe]
        exact hI.run_sub sid hrun
    · intro x
      by_cases he : x = sid
      · subst he
        rw [updState, if_pos rfl]
        simp
      · rw [updState, if_neg he, List.map_append]
        rw [show (List.map Prod.fst [(sid, res)]) = [sid] from rfl]
        constructor
        · intro hmem
          rcases List.mem_append.1 hmem with h' | h'
          · exact (hI.comp_iff x).1 h'
          · exact absurd (List.mem_singleton.1 h') he
        · intro hc
          exact List.mem_append.2 (Or.inl ((hI.comp_iff x).2 hc))
    · intro x hx
      have hne : x ≠ sid := fun he => hsnotfail (he ▸ hx)
      rw [updState, if_neg hne]
      exact hI.fail_status x hx
    · intro x hx
      by_cases he : x = sid
      · subst he
        rw [updState, if_pos rfl] at hx
        simp at hx
      · rw [updState, if_neg he] at hx
        exact hI.fail_of_failed x hx
    · intro hne
      obtain ⟨w, hmem, hw⟩ := hI.fail_witness hne
      have hne' : w ≠ sid := fun he => hsnotfail (he ▸ hmem)
      exact ⟨w, hmem, by rw [updState, if_neg hne']; exact hw⟩
    · intro pr hmem
      obtain ⟨t, hf, hsome, hctx⟩ := hI.deliv pr hmem
      refine ⟨t, hf, ?_, ?_⟩
      · intro d hd
        rw [lookup_append_of_isSome st.completedL (sid, res) d (hsome d hd)]
        exact hsome d hd
      · intro hdne
        rw [hctx hdne]
        exact filterMap_lookup_congr st.completedL (st.completedL ++ [(sid, res)])
          t.depends_on
          (fun d hd => lookup_append_of_isSome st.completedL (sid, res) d (hsome d hd))
    · intro x hx
      by_cases he : x = sid
      · subst he
        exact hI.launched x (Or.inl hstat)
      · rw [updState, if_neg he] at hx
        exact hI.launched x hx
  · rw [if_neg ht]
    refine ⟨hI.pend_nodup, hI.pend_sub, ?_, ?_, ?_, hI.comp_sub, ?_, ?_, ?_, ?_,
      ?_, ?_, ?_⟩
    all_goals dsimp only
    · exact hI.run_nodup.erase sid
    · intro x hx
      exact hI.run_sub x (List.mem_of_mem_erase hx)
    · intro x hx
      obtain ⟨hne, hx'⟩ := herase x hx
      rw [updState, if_neg hne]
      exact hI.run_status x hx'
    · intro x
      by_cases he : x = sid
      · subst he
        rw [updState, if_pos rfl]
        simp only [iff_iff_implies_and_implies]
        constructor
        · intro hmem
          exact absurd hmem hsnotcomp
        · intro hc; simp at hc
      · rw [updState, if_neg he]
        exact hI.comp_iff x
    · intro x hx
      rcases mem_of_mem_insertId st.failedIds sid x hx with h' | rfl
      · exact hI.fail_sub x h'
      · exact hI.run_sub x hrun
    · intro x hx
      rcases mem_of_mem_insertId st.failedIds sid x hx with h' | rfl
      · have hne : x ≠ sid := fun he => hsnotfail (he ▸ h')
        rw [updState, if_neg hne]
        exact hI.fail_status x h'
      · rw [updState, if_pos rfl]
        exact Or.inl rfl
    · intro x hx
      by_cases he : x = sid
      · subst he
        exact mem_insertId_self st.failedIds x
      · rw [updState, if_neg he] at hx
        exact mem_insertId_of_mem st.failedIds sid x (hI.fail_of_failed x hx)
    · intro _
      exact ⟨sid, mem_insertId_self st.failedIds sid,
        by rw [updState, if_pos rfl]⟩
    · intro pr hmem
      exact hI.deliv pr hmem
    · intro x hx
      by_cases he : x = sid
      · subst he
        exact hI.launched x (Or.inl hstat)
      · rw [updState, if_neg he] at hx
        exact hI.launched x hx

theorem getD_mod_mem (l : List String) (k : ℕ) (h : l ≠ []) :
    l.getD (k % l.length) "" ∈ l := by
  have hl : 0 < l.length := List.length_pos.2 h
  have hk : k % l.length < l.length := Nat.mod_lt k hl
  rw [List.getD_eq_getElem l "" hk]
  exact List.getElem_mem hk

theorem dagLoop_inv (oracle : String → Val) (chooser : ℕ → ℕ) :
    ∀ (fuel tick : ℕ) (st stF : DagState), Inv st →
    dagLoop oracle chooser fuel tick st = some stF →
    Inv stF ∧ stF.plan = st.plan := by
  intro fuel
  induction fuel with
  | zero => intro tick st stF _ h; simp [dagLoop] at h
  | succ n ih =>
    intro tick st stF hI h
    rw [dagLoop] at h
    dsimp only at h
    have hIg : Inv (getReady st).2 := getReady_inv st hI
    have hnd : ((getReady st).1.map Step.id).Nodup := by
      rw [getReady_fst]
      exact scanP_ready_nodup st.plan st.completedL st.pending st.stateOf
        st.failedIds hI.pend_nodup
    have hok : ∀ s ∈ (getReady st).1,
        findStep (getReady st).2.plan s.id = some s ∧
        ((getReady st).2.stateOf s.id).status = .pending ∧
        ∀ d ∈ s.depends_on, (((getReady st).2.completedL.lookup d).isSome : Prop) := by
      intro s hs
      rw [getReady_fst] at hs
      obtain ⟨hf, -, hp, hd⟩ := scanP_ready st.plan st.completedL st.pending
        st.stateOf st.failedIds hI.pend_nodup s hs
      exact ⟨hf, hp, hd⟩
    have hI2 : Inv ((getReady st).1.foldl launchStep (getReady st).2) :=
      launchFold_inv (getReady st).1 (getReady st).2 hIg hnd hok
    by_cases he : ((getReady st).1.foldl launchStep (getReady st).2).running.isEmpty
    · rw [if_pos he] at h
      obtain rfl := Option.some.inj h
      refine ⟨hI2, ?_⟩
      rw [launchFold_plan]
      rfl
    · rw [if_neg he] at h
      have hne : ((getReady st).1.foldl launchStep (getReady st).2).running ≠ [] := by
        simpa [List.isEmpty_iff] using he
      have hmem := getD_mod_mem
        ((getReady st).1.foldl launchStep (getReady st).2).running (chooser tick) hne
      obtain ⟨hIF, hplan⟩ := ih (tick + 1) _ stF
        (processResult_inv _ _ _ hI2 hmem) h
      refine ⟨hIF, ?_⟩
      rw [hplan, processResult_plan, launchFold_plan]
      rfl

theorem dagLoop_terminates (oracle : String → Val) (chooser : ℕ → ℕ) :
    ∀ (fuel tick : ℕ) (st : DagState),
    st.pending.length + st.running.length < fuel →
    (dagLoop oracle chooser fuel tick st).isSome := by
  intro fuel
  induction fuel with
  | zero => intro tick st h; exact absurd h (Nat.not_lt_zero _)
  | succ n ih =>
    intro tick st h
    rw [dagLoop]
    dsimp only
    by_cases he : ((getReady st).1.foldl launchStep (getReady st).2).running.isEmpty
    · rw [if_pos he]; rfl
    · rw [if_neg he]
      apply ih
      have hne : ((getReady st).1.foldl launchStep (getReady st).2).running ≠ [] := by
        simpa [List.isEmpty_iff] using he
      have hmem := getD_mod_mem
        ((getReady st).1.foldl launchStep (getReady st).2).running (chooser tick) hne
      have hrun2 : ((getReady st).1.foldl launchStep (getReady st).2).running
          = st.running ++ (getReady st).1.map Step.id := by
        rw [launchFold_running]
        rfl
      have hpend2 : ((getReady st).1.foldl launchStep (getReady st).2).pending.length
          = (scanP st.plan st.completedL st.stateOf st.failedIds
              st.pending).newPending.length := by
        rw [launchFold_pending]
        rfl
      rw [processResult_pending, processResult_running,
        List.length_erase_of_mem hmem, hpend2, hrun2,
        List.length_append, List.length_map]
      have hcount := scanP_count st.plan st.completedL st.pending st.stateOf st.failedIds
      have hready_len : (getReady st).1.length =
          (scanP st.plan st.completedL st.stateOf st.failedIds st.pending).ready.length := by
        rw [getReady_fst]
      have hpos : 0 < st.running.length + (getReady st).1.length := by
        have hne2 : st.running ++ (getReady st).1.map Step.id ≠ [] := by
          rw [← hrun2]; exact hne
        have := List.length_pos.2 hne2
        rwa [List.length_append, List.length_map] at this
      rw [hready_len] at hpos ⊢
      omega

theorem dag_terminates (oracle : String → Val) (chooser : ℕ → ℕ)
    (plan : List Step) :
    (dagRun oracle chooser (plan.length + 1) plan).isSome := by
  apply dagLoop_terminates
  simp [initState]

theorem scanP_skip_dep (plan : List Step) (completedL : List (String × Val)) :
    ∀ (pending : List String) (stOf : String → StepState)
      (failed : List String) (sid : String),
    (((scanP plan completedL stOf failed pending).stOf sid).status = .skipped) →
    (stOf sid).status = .skipped ∨
      ∃ s, findStep plan sid = some s ∧ ∃ d ∈ s.depends_on,
        d ∈ (scanP plan completedL stOf failed pending).failed := by
  intro pending
  induction pending with
  | nil => intro stOf failed sid h; exact Or.inl h
  | cons p rest ih =>
    intro stOf failed sid h
    cases hfind : findStep plan p with
    | none =>
      rw [scanP_eq_drop plan completedL stOf failed rest p hfind] at h ⊢
      exact ih stOf failed sid h
    | some step =>
      by_cases h1 : (stOf p).status ≠ .pending
      · rw [scanP_eq_moved plan completedL stOf failed rest p step hfind h1] at h ⊢
        exact ih stOf failed sid h
      · by_cases h2 : step.depends_on ≠ [] ∧ ∃ d ∈ step.depends_on, d ∈ failed
        · rw [scanP_eq_skip plan completedL stOf failed rest p step hfind h1 h2] at h ⊢
          rcases ih _ _ sid h with h' | h'
          · by_cases he : sid = p
            · subst he
              obtain ⟨-, d, hd, hdf⟩ := h2
              exact Or.inr ⟨step, hfind, d, hd,
                scanP_failed_mono plan completedL rest _ _ d
                  (mem_insertId_of_mem failed sid d hdf)⟩
            · rw [updState, if_neg he] at h'
              exact Or.inl h'
          · exact Or.inr h'
        · by_cases h3 : ∀ d ∈ step.depends_on, ((completedL.lookup d).isSome : Prop)
          · rw [scanP_eq_ready plan completedL stOf failed rest p step hfind h1 h2 h3] at h ⊢
            exact ih stOf failed sid h
          · rw [scanP_eq_stay plan completedL stOf failed rest p step hfind h1 h2 h3] at h ⊢
            exact ih stOf failed sid h

theorem initState_skipInv (plan : List Step) : SkipInv (initState plan) := by
  intro sid h
  simp [initState, StepState.start] at h

theorem getReady_skipInv (st : DagState) (hS : SkipInv st) :
    SkipInv (getReady st).2 := by
  rw [getReady_snd]
  intro sid h
  dsimp only at h ⊢
  rcases scanP_stOf st.plan st.completedL st.pending st.stateOf st.failedIds sid
    with he | ⟨hpend, he, hf⟩
  · rw [he] at h
    obtain ⟨hmem, s, hfind, d, hd, hdf⟩ := hS sid h
    refine ⟨scanP_failed_mono st.plan st.completedL st.pending st.stateOf
      st.failedIds sid hmem, s, hfind, d, hd,
      scanP_failed_mono st.plan st.completedL st.pending st.stateOf
        st.failedIds d hdf⟩
  · refine ⟨hf, ?_⟩
    rcases scanP_skip_dep st.plan st.completedL st.pending st.stateOf st.failedIds
      sid h with h' | h'
    · rw [h'] at hpend; simp at hpend
    · exact h'

theorem launchStep_skipInv (st : DagState) (s : Step) (hS : SkipInv st)
    (_hpend : (st.stateOf s.id).status = .pending) :
    SkipInv (launchStep st s) := by
  intro x hx
  rw [launchStep] at hx ⊢
  dsimp only at hx ⊢
  by_cases he : x = s.id
  · subst he
    rw [updState, if_pos rfl] at hx
    simp at hx
  · rw [updState, if_neg he] at hx
    exact hS x hx

theorem launchFold_skipInv (rs : List Step) : ∀ st : DagState, SkipInv st →
    (rs.map Step.id).Nodup →
    (∀ s ∈ rs, (st.stateOf s.id).status = .pending) →
    SkipInv (rs.foldl launchStep st) := by
  induction rs with
  | nil => intro st hS _ _; exact hS
  | cons s rest ih =>
    intro st hS hnd hok
    rw [List.map_cons, List.nodup_cons] at hnd
    have hpend := hok s (List.mem_cons_self s rest)
    rw [List.foldl_cons]
    refine ih (launchStep st s) (launchStep_skipInv st s hS hpend) hnd.2 ?_
    intro t ht
    have hne : t.id ≠ s.id := fun he => hnd.1 (he ▸ List.mem_map.2 ⟨t, ht, rfl⟩)
    show ((updState st.stateOf s.id _ ) t.id).status = .pending
    rw [updState, if_neg hne]
    exact hok t (List.mem_cons_of_mem s ht)

theorem processResult_skipInv (st : DagState) (sid : String) (res : Val)
    (hI : Inv st) (hS : SkipInv st) (hrun : sid ∈ st.running) :
    SkipInv (processResult st sid res) := by
  have hstat := hI.run_status sid hrun
  intro x hx
  rw [processResult] at hx ⊢
  dsimp only at hx ⊢
  by_cases ht : truthy ((res.getKey "success").getD .vnull)
  · rw [if_pos ht] at hx ⊢
    dsimp only at hx ⊢
    by_cases he : x = sid
    · subst he
      rw [updState, if_pos rfl] at hx
      simp at hx
    · rw [updState, if_neg he] at hx
      exact hS x hx
  · rw [if_neg ht] at hx ⊢
    dsimp only at hx ⊢
    by_cases he : x = sid
    · subst he
      rw [updState, if_pos rfl] at hx
      simp at hx
    · rw [updState, if_neg he] at hx
      obtain ⟨hmem, s, hfind, d, hd, hdf⟩ := hS x hx
      exact ⟨mem_insertId_of_mem st.failedIds sid x hmem, s, hfind, d, hd,
        mem_insertId_of_mem st.failedIds sid d hdf⟩

theorem dagLoop_skipInv (oracle : String → Val) (chooser : ℕ → ℕ) :
    ∀ (fuel tick : ℕ) (st stF : DagState), Inv st → SkipInv st →
    dagLoop oracle chooser fuel tick st = some stF → SkipInv stF := by
  intro fuel
  induction fuel with
  | zero => intro tick st stF _ _ h; simp [dagLoop] at h
  | succ n ih =>
    intro tick st stF hI hS h
    rw [dagLoop] at h
    dsimp only at h
    have hIg : Inv (getReady st).2 := getReady_inv st hI
    have hSg : SkipInv (getReady st).2 := getReady_skipInv st hS
    have hnd : ((getReady st).1.map Step.id).Nodup := by
      rw [getReady_fst]
      exact scanP_ready_nodup st.plan st.completedL st.pending st.stateOf
        st.failedIds hI.pend_nodup
    have hok : ∀ s ∈ (getReady st).1,
        findStep (getReady st).2.plan s.id = some s ∧
        ((getReady st).2.stateOf s.id).status = .pending ∧
        ∀ d ∈ s.depends_on, (((getReady st).2.completedL.lookup d).isSome : Prop) := by
      intro s hs
      rw [getReady_fst] at hs
      obtain ⟨hf, -, hp, hd⟩ := scanP_ready st.plan st.completedL st.pending
        st.stateOf st.failedIds hI.pend_nodup s hs
      exact ⟨hf, hp, hd⟩
    have hI2 : Inv ((getReady st).1.foldl launchStep (getReady st).2) :=
      launchFold_inv (getReady st).1 (getReady st).2 hIg hnd hok
    have hS2 : SkipInv ((getReady st).1.foldl launchStep (getReady st).2) :=
      launchFold_skipInv (getReady st).1 (getReady st).2 hSg hnd
        (fun s hs => (hok s hs).2.1)
    by_cases he : ((getReady st).1.foldl launchStep (getReady st).2).running.isEmpty
    · rw [if_pos he] at h
      obtain rfl := Option.some.inj h
      exact hS2
    · rw [if_neg he] at h
      have hne : ((getReady st).1.foldl launchStep (getReady st).2).running ≠ [] := by
        simpa [List.isEmpty_iff] using he
      have hmem := getD_mod_mem
        ((getReady st).1.foldl launchStep (getReady st).2).running (chooser tick) hne
      exact ih (tick + 1) _ stF (processResult_inv _ _ _ hI2 hmem)
        (processResult_skipInv _ _ _ hI2 hS2 hmem) h

/-! ## Claim C2: terminal status determination -/

/-- C2: for every task that reaches finalization, the terminal status is
`completed` iff at least one step completed and no step failed,
`partial` iff at least one step completed and at least one step failed,
and `failed` iff no step completed — exactly as the spec states, because
the summary's `failed` count (the size of the failed-id set, which also
holds skipped ids) is positive precisely when some step has status
failed. -/
theorem c2_terminal_status (plan : List Step) (oracle : String → Val)
    (chooser : ℕ → ℕ) (fuel : ℕ) (stF : DagState)
    (hnd : (planIds plan).Nodup)
    (hrun : dagRun oracle chooser fuel plan = some stF) :
    ((finalizeStatus (summarize stF).completed (summarize stF).failed).1 = .completed ↔
      (∃ x, (stF.stateOf x).status = .completed) ∧
        ∀ x, (stF.stateOf x).status ≠ .failed) ∧
    ((finalizeStatus (summarize stF).completed (summarize stF).failed).1 = .partialSt ↔
      (∃ x, (stF.stateOf x).status = .completed) ∧
        ∃ x, (stF.stateOf x).status = .failed) ∧
    ((finalizeStatus (summarize stF).completed (summarize stF).failed).1 = .failed ↔
      ¬ ∃ x, (stF.stateOf x).status = .completed) := by
  have hI : Inv stF :=
    (dagLoop_inv oracle chooser fuel 0 (initState plan) stF
      (initState_inv plan hnd) hrun).1
  have hc : 0 < stF.completedL.length ↔
      ∃ x, (stF.stateOf x).status = .completed := by
    constructor
    · intro h
      obtain ⟨pr, hpr⟩ := List.exists_mem_of_length_pos h
      exact ⟨pr.1, (hI.comp_iff pr.1).1 (List.mem_map.2 ⟨pr, hpr, rfl⟩)⟩
    · rintro ⟨x, hx⟩
      have hmem := (hI.comp_iff x).2 hx
      have hpos : 0 < (stF.completedL.map Prod.fst).length :=
        List.length_pos.2 (List.ne_nil_of_mem hmem)
      simpa using hpos
  have hfq : 0 < stF.failedIds.length ↔
      ∃ x, (stF.stateOf x).status = .failed := by
    constructor
    · intro h
      obtain ⟨x, -, hx⟩ := hI.fail_witness (List.length_pos.1 h)
      exact ⟨x, hx⟩
    · rintro ⟨x, hx⟩
      exact List.length_pos.2 (List.ne_nil_of_mem (hI.fail_of_failed x hx))
  rw [finalizeStatus]
  by_cases hC : 0 < (summarize stF).completed
  · by_cases hF : 0 < (summarize stF).failed
    · rw [if_neg (fun hcon => hcon.2 hF), if_pos ⟨hC, hF⟩]
      refine ⟨?_, ?_, ?_⟩
      · refine iff_of_false (by simp) ?_
        rintro ⟨-, hall⟩
        obtain ⟨x, hx⟩ := hfq.1 hF
        exact hall x hx
      · exact iff_of_true rfl ⟨hc.1 hC, hfq.1 hF⟩
      · exact iff_of_false (by simp) (fun hn => hn (hc.1 hC))
    · rw [if_pos ⟨hC, hF⟩]
      refine ⟨?_, ?_, ?_⟩
      · exact iff_of_true rfl ⟨hc.1 hC, fun x hx => hF (hfq.2 ⟨x, hx⟩)⟩
      · refine iff_of_false (by simp) ?_
        rintro ⟨-, hex⟩
        exact hF (hfq.2 hex)
      · exact iff_of_false (by simp) (fun hn => hn (hc.1 hC))
  · rw [if_neg (fun hcon => hC hcon.1), if_neg (fun hcon => hC hcon.1)]
    refine ⟨?_, ?_, ?_⟩
    · refine iff_of_false (by simp) ?_
      rintro ⟨hex, -⟩
      exact hC (hc.2 hex)
    · refine iff_of_false (by simp) ?_
      rintro ⟨hex, -⟩
      exact hC (hc.2 hex)
    · exact iff_of_true rfl (fun hex => hC (hc.2 hex))

theorem c2_terminal_status_witness :
    (finalizeStatus (summarize stC6).completed (summarize stC6).failed).1 =
        .completed ↔
      (∃ x, (stC6.stateOf x).status = .completed) ∧
        ∀ x, (stC6.stateOf x).status ≠ .failed :=
  (c2_terminal_status planC6 oracleOk ch0 10 stC6 (by decide) rfl).1

/-! ## Claim C1: the skip cascade's accounting -/

/-- C1 counterexample: on the A → B → C chain with A failing, the
summary's `failed` count is 3 — `_failed_ids` also collects skipped
ids (`dag.py:73`) — so `skipped = total - completed - failed` is 0, not
2; and the `task_done` payload carries no `steps_skipped` key at all
(`pipeline.py:192-203`), while its `steps_failed` is 3, not 1. -/
theorem c1_counterexample :
    (summarize stC1).failed = 3 ∧
    (summarize stC1).skipped = 0 ∧
    pipeC1.task_done_data.lookup "steps_skipped" = none ∧
    pipeC1.task_done_data.lookup "steps_failed" = some (.vnum (.pint 3)) :=
  ⟨by decide, by decide, rfl, rfl⟩

/-- C1, amended: on the chain A → B → C with A failing, B and C do end
skipped with error `"dependency failed"` and the terminal status is
`failed`, as claimed; but the summary counts are `failed = 3`,
`skipped = 0` (the failed-id set holds A, B and C), the pipeline —
seeing no completed step — replans, and the `task_done` payload carries
`steps_completed = 0` and `steps_failed = 3` and no `steps_skipped`
key. -/
theorem c1_skip_cascade :
    (stC1.stateOf "A").status = .failed ∧
    (stC1.stateOf "B").status = .skipped ∧
    (stC1.stateOf "B").error = some "dependency failed" ∧
    (stC1.stateOf "C").status = .skipped ∧
    (stC1.stateOf "C").error = some "dependency failed" ∧
    (summarize stC1).total = 3 ∧
    (summarize stC1).completed = 0 ∧
    (summarize stC1).failed = 3 ∧
    (summarize stC1).skipped = 0 ∧
    stC1.failedIds = ["A", "B", "C"] ∧
    pipeC1.replanned = true ∧
    pipeC1.status = .failed ∧
    pipeC1.error = some "All steps failed" ∧
    pipeC1.task_done_data.lookup "steps_completed" = some (.vnum (.pint 0)) ∧
    pipeC1.task_done_data.lookup "steps_failed" = some (.vnum (.pint 3)) ∧
    pipeC1.task_done_data.lookup "steps_skipped" = none :=
  ⟨by decide, by decide, by decide, by decide, by decide, by decide, by decide,
   by decide, by decide, by decide, by decide, by decide, by decide, rfl, rfl, rfl⟩

/-! ## Claim C6: implicit dependencies and delivered context -/

/-- C6 counterexample: in the two-step plan `[A (browser), B (llm, no
dependencies)]`, B is ready in the very first scan, before any step has
completed — the readiness check `all(dep in completed for dep in
step.depends_on)` is vacuously true on an empty list, so the scheduler
does **not** treat prior steps as implicit dependencies — and the
context delivered to B's executor is the empty list even though A
completes during the same run. -/
theorem c6_counterexample :
    ((getReady (initState planC6)).1.map Step.id) = ["A", "B"] ∧
    stC6.delivered.lookup "B" = some [] ∧
    (stC6.stateOf "A").status = .completed ∧
    stC6.completedL.lookup "A" = some okDict :=
  ⟨by decide, rfl, by decide, rfl⟩

/-- C6, amended: `_collect_context_for` does give an `llm` step with no
explicit dependencies every completed result of the plan (in completion
insertion order) *as of launch time*, and gives a step with explicit
dependencies exactly its dependencies' completed results (in
dependency-list order); but readiness ignores the implicit
dependencies: a pending step whose dependency list is empty is ready in
every scan that reaches it, whatever has completed. -/
theorem c6_implicit_context :
    (∀ (st : DagState) (s : Step), s.depends_on = [] → s.executor = .llm →
      collectContext st s = st.completedL.map (fun pr => pr.2)) ∧
    (∀ (st : DagState) (s : Step), s.depends_on ≠ [] →
      collectContext st s = s.depends_on.filterMap fun d => st.completedL.lookup d) ∧
    (∀ (plan : List Step) (completedL : List (String × Val))
      (pending : List String) (stOf : String → StepState)
      (failed : List String) (x : String) (s : Step),
      x ∈ pending → findStep plan x = some s → s.depends_on = [] →
      (stOf x).status = .pending →
      s ∈ (scanP plan completedL stOf failed pending).ready) := by
  refine ⟨?_, ?_, ?_⟩
  · intro st s hdep hex
    rw [collectContext, if_pos ⟨hdep, hex⟩]
  · intro st s hdep
    rw [collectContext, if_neg (fun hcon => hdep hcon.1)]
  · intro plan completedL pending
    induction pending with
    | nil => intro stOf failed x s hx; simp at hx
    | cons p rest ih =>
      intro stOf failed x s hx hfind hdep hpend
      by_cases hps : p = x
      · subst hps
        rw [scanP_eq_ready plan completedL stOf failed rest p s hfind
          (not_not_intro hpend) (fun hcon => hcon.1 hdep)
          (by rw [hdep]; intro d hd; simp at hd)]
        exact List.mem_cons_self s _
      · have hx' : x ∈ rest := by
          rcases List.mem_cons.1 hx with rfl | hr
          · exact absurd rfl hps
          · exact hr
        cases hfindp : findStep plan p with
        | none =>
          rw [scanP_eq_drop plan completedL stOf failed rest p hfindp]
          exact ih stOf failed x s hx' hfind hdep hpend
        | some step =>
          by_cases h1 : (stOf p).status ≠ .pending
          · rw [scanP_eq_moved plan completedL stOf failed rest p step hfindp h1]
            exact ih stOf failed x s hx' hfind hdep hpend
          · by_cases h2 : step.depends_on ≠ [] ∧ ∃ d ∈ step.depends_on, d ∈ failed
            · rw [scanP_eq_skip plan completedL stOf failed rest p step hfindp h1 h2]
              refine ih _ _ x s hx' hfind hdep ?_
              rw [updState, if_neg (fun he => hps he.symm)]
              exact hpend
            · by_cases h3 : ∀ d ∈ step.depends_on,
                  ((completedL.lookup d).isSome : Prop)
              · rw [scanP_eq_ready plan completedL stOf failed rest p step
                  hfindp h1 h2 h3]
                exact List.mem_cons_of_mem step
                  (ih stOf failed x s hx' hfind hdep hpend)
              · rw [scanP_eq_stay plan completedL stOf failed rest p step
                  hfindp h1 h2 h3]
                exact ih stOf failed x s hx' hfind hdep hpend

theorem c6_implicit_context_witness :
    collectContext stC6 (mkStepE "B" [] .llm) =
      stC6.completedL.map (fun pr => pr.2) :=
  c6_implicit_context.1 stC6 (mkStepE "B" [] .llm) rfl rfl

/-! ## Claim C7: cost and duration at finalization -/

theorem pyRound_exact (q : ℚ) (m : ℤ) (h : q * 1000000 = (m : ℚ)) :
    pyRound 6 q = q := by
  rw [pyRound]
  have h10 : ((10 : ℚ) ^ (6 : ℕ)) = 1000000 := by norm_num
  rw [h10, h, round_intCast]
  rw [div_eq_iff (by norm_num : (1000000 : ℚ) ≠ 0)]
  exact h.symm

theorem qTrunc_intCast (k : ℤ) : qTrunc (k : ℚ) = k := by
  rw [qTrunc]
  simp

theorem pipeC7_planCost : planCost pipeC7.finalPlan pipeC7.finalState = 0 := by
  have hA : (pipeC7.finalState.stateOf "A").cost_usd = 0 := by decide
  have hB : (pipeC7.finalState.stateOf "B").cost_usd = 0 := by decide
  have hplan : pipeC7.finalPlan = planC6 := rfl
  rw [hplan, planCost, planC6]
  simp only [mkStepE, List.map_cons, List.map_nil, List.sum_cons, List.sum_nil]
  rw [hA, hB]
  norm_num

/-- C7: for every task that reaches finalization, the task's `cost_usd`
equals the sum of its final plan's step costs (the code stores
`round(sum, 6)`, which is the sum itself whenever every cost is a whole
number of micro-dollars, as the deployed per-token prices are), and
with a monotone clock whose elapsed time is a whole number of
milliseconds, `duration_ms` is nonnegative and equals
`finished_at - created_at` in milliseconds. -/
theorem c7_cost_duration (plan1 : List Step) (oracle1 : String → Val)
    (chooser1 : ℕ → ℕ) (plan2 : List Step) (oracle2 : String → Val)
    (chooser2 : ℕ → ℕ) (fuel1 fuel2 : ℕ) (createdAt finishedAt : ℚ)
    (planMs execMs : ℤ) (pr : PipeResult)
    (hrun : runTaskModel plan1 oracle1 chooser1 plan2 oracle2 chooser2
      fuel1 fuel2 createdAt finishedAt planMs execMs = some pr)
    (hmono : createdAt ≤ finishedAt)
    (hms : ∃ k : ℤ, (finishedAt - createdAt) * 1000 = (k : ℚ))
    (hcost : ∃ m : ℤ, planCost pr.finalPlan pr.finalState * 1000000 = (m : ℚ)) :
    pr.cost_usd = planCost pr.finalPlan pr.finalState ∧
    0 ≤ pr.duration_ms ∧
    (pr.duration_ms : ℚ) = (finishedAt - createdAt) * 1000 := by
  have hshape : pr.cost_usd = pyRound 6 (planCost pr.finalPlan pr.finalState) ∧
      pr.duration_ms = qTrunc ((finishedAt - createdAt) * 1000) := by
    rw [runTaskModel] at hrun
    cases hd1 : dagRun oracle1 chooser1 fuel1 plan1 with
    | none => rw [hd1] at hrun; simp at hrun
    | some st1 =>
      rw [hd1] at hrun
      simp only [Option.bind_eq_bind, Option.some_bind] at hrun
      by_cases hif : (summarize st1).completed = 0 ∧ (summarize st1).failed > 0
      · rw [if_pos hif] at hrun
        cases hd2 : dagRun oracle2 chooser2 fuel2 plan2 with
        | none => rw [hd2] at hrun; simp at hrun
        | some st2 =>
          rw [hd2] at hrun
          simp only [Option.bind_eq_bind, Option.some_bind] at hrun
          have hpr := Option.some.inj hrun
          rw [← hpr]
          exact ⟨rfl, rfl⟩
      · rw [if_neg hif] at hrun
        have hpr := Option.some.inj hrun
        rw [← hpr]
        exact ⟨rfl, rfl⟩
  obtain ⟨m, hm⟩ := hcost
  obtain ⟨k, hk⟩ := hms
  have hdur : pr.duration_ms = k := by
    rw [hshape.2, hk, qTrunc_intCast]
  have hknn : (0 : ℚ) ≤ (k : ℚ) := by
    rw [← hk]
    have : (0 : ℚ) ≤ finishedAt - createdAt := by linarith
    nlinarith
  refine ⟨hshape.1.trans (pyRound_exact _ m hm), ?_, ?_⟩
  · rw [hdur]
    exact_mod_cast hknn
  · rw [hdur, hk]

theorem c7_cost_duration_witness :
    pipeC7.cost_usd = planCost pipeC7.finalPlan pipeC7.finalState ∧
    0 ≤ pipeC7.duration_ms ∧
    (pipeC7.duration_ms : ℚ) = ((1 : ℚ) - 0) * 1000 :=
  c7_cost_duration planC6 oracleOk ch0 planC6 oracleOk ch0 10 10 0 1 0 0 pipeC7
    rfl (by norm_num) ⟨1000, by norm_num⟩
    ⟨0, by rw [pipeC7_planCost]; norm_num⟩

/-! ## Claim C10: termination and the pending accounting -/

/-- C10 counterexample: in `planC10` the step F's dependency E fails, so
F — a step whose dependencies can never all complete — does not remain
`pending` and is not counted by the summary's `skipped` count: it is
marked `skipped`, its id joins the failed-id set, and it is counted by
`failed` (= 2, for E and F), while `skipped` (= 2) counts exactly the
never-launched steps G (unknown dependency) and H (self-cycle) that do
remain `pending`. -/
theorem c10_counterexample :
    (stC10.stateOf "F").status = .skipped ∧
    "F" ∈ stC10.failedIds ∧
    (summarize stC10).failed = 2 ∧
    (summarize stC10).skipped = 2 ∧
    (stC10.stateOf "G").status = .pending ∧
    (stC10.stateOf "H").status = .pending :=
  ⟨by decide, by decide, by decide, by decide, by decide, by decide⟩

/-- C10, amended: `execute` terminates on every plan — fuel
`|plan| + 1` always suffices, cycles and unresolvable dependencies
included — and the summary's `skipped` count is the arithmetic
remainder `total - completed - failed`.  A step one of whose
dependencies never reached the completed dict is never handed to a
worker and ends `pending` or `skipped`; it ends `skipped` (and is then
counted by `failed`, not `skipped`) exactly when it was discarded over
a dependency in the failed-id set. -/
theorem c10_termination_accounting (plan : List Step) (oracle : String → Val)
    (chooser : ℕ → ℕ) (fuel : ℕ) (stF : DagState)
    (hnd : (planIds plan).Nodup)
    (hrun : dagRun oracle chooser fuel plan = some stF) :
    (dagRun oracle chooser (plan.length + 1) plan).isSome ∧
    (summarize stF).skipped =
      (summarize stF).total - (summarize stF).completed - (summarize stF).failed ∧
    (∀ s ∈ plan, (∃ d ∈ s.depends_on, stF.completedL.lookup d = none) →
      s.id ∉ stF.delivered.map Prod.fst ∧
      ((stF.stateOf s.id).status = .pending ∨
        (stF.stateOf s.id).status = .skipped)) ∧
    (∀ s ∈ plan, (stF.stateOf s.id).status = .skipped →
      s.id ∈ stF.failedIds ∧ ∃ d ∈ s.depends_on, d ∈ stF.failedIds) := by
  have hloop := dagLoop_inv oracle chooser fuel 0 (initState plan) stF
    (initState_inv plan hnd) hrun
  have hI : Inv stF := hloop.1
  have hplan : stF.plan = plan := hloop.2
  have hSk : SkipInv stF := dagLoop_skipInv oracle chooser fuel 0 (initState plan)
    stF (initState_inv plan hnd) (initState_skipInv plan) hrun
  refine ⟨dag_terminates oracle chooser plan, rfl, ?_, ?_⟩
  · intro s hs hdep
    have hfind : findStep stF.plan s.id = some s := by
      rw [hplan]
      exact findStep_self plan hnd s hs
    have hnotdel : s.id ∉ stF.delivered.map Prod.fst := by
      intro hcon
      obtain ⟨pr, hpr, hpr1⟩ := List.mem_map.1 hcon
      obtain ⟨t, hft, hsome, -⟩ := hI.deliv pr hpr
      rw [hpr1, hfind] at hft
      obtain rfl := Option.some.inj hft
      obtain ⟨d, hd, hdn⟩ := hdep
      have := hsome d hd
      rw [hdn] at this
      simp at this
    refine ⟨hnotdel, ?_⟩
    cases h5 : (stF.stateOf s.id).status with
    | pending => exact Or.inl rfl
    | skipped => exact Or.inr rfl
    | running => exact absurd (hI.launched s.id (Or.inl h5)) hnotdel
    | completed => exact absurd (hI.launched s.id (Or.inr (Or.inl h5))) hnotdel
    | failed => exact absurd (hI.launched s.id (Or.inr (Or.inr h5))) hnotdel
  · intro s hs hsk
    obtain ⟨hmem, t, hft, d, hd, hdf⟩ := hSk s.id hsk
    have hfind : findStep stF.plan s.id = some s := by
      rw [hplan]
      exact findStep_self plan hnd s hs
    rw [hfind] at hft
    obtain rfl := Option.some.inj hft
    exact ⟨hmem, d, hd, hdf⟩

theorem c10_termination_accounting_witness :
    (dagRun oracleC10 ch0 (planC10.length + 1) planC10).isSome ∧
    (summarize stC10).skipped =
      (summarize stC10).total - (summarize stC10).completed -
        (summarize stC10).failed :=
  ⟨(c10_termination_accounting planC10 oracleC10 ch0 10 stC10
      (by decide) rfl).1,
   (c10_termination_accounting planC10 oracleC10 ch0 10 stC10
      (by decide) rfl).2.1⟩

end Evoco
